import Mathlib

/-!
Verification of the Panopticon pipeline engine core.

This file gives a shallow embedding, in Lean 4, of the parts of the engine
that the checked properties concern: the scalar value tree and the scalar
store (`src/values/scalar.rs`, `src/values/helpers.rs`), store paths
(`src/values/mod.rs`), the `ExecutableWrapper` protocol
(`src/pipeline/traits.rs`), the iterative-namespace execution loop
(`src/pipeline/ready.rs`), dependency extraction
(`src/dependencies/helpers.rs`), the schema builder (`src/spec/builder.rs`,
`src/spec/mod.rs`), and the execution plan with its topological sort
(`src/pipeline/order.rs`, `src/pipeline/draft.rs`).

Modelling conventions:
* Rust `&mut` parameters are modelled by returning the updated value
  alongside the function's result.
* `tera::Map` / `tera::Context` / `HashMap` are modelled as association
  lists with in-place-update insert; only their map semantics matter here.
* `HashSet` is modelled as a `Finset` (or a deduplicated list where the
  source takes set cardinality).
* Wall-clock durations are abstracted as a `Nat` parameter.
* Numbers in the scalar tree are modelled as integers; the `f64` fallback
  of `parse_scalar` is outside the integer model and is noted where it
  would apply (none of the proved properties depend on the numeric value).
* The external tera grammar parser is abstracted as a function parameter
  returning the list of dotted identifiers of a template (or `none` on a
  parse error), exactly the interface `parse_template_dependencies` uses.
-/

namespace Panopticon

/-- `ScalarValue` (`src/values/scalar.rs`): a JSON-like dynamic value
(`tera::Value`).  Objects are ordered string-keyed maps, modelled as
association lists. -/
inductive ScalarValue where
  | null
  | bool (b : Bool)
  | num (n : Int)
  | str (s : String)
  | arr (elems : List ScalarValue)
  | obj (fields : List (String × ScalarValue))
deriving Repr

/-- Decidable equality for `ScalarValue`. -/
def ScalarValue.beq : ScalarValue → ScalarValue → Bool
  | .null, .null => true
  | .bool a, .bool b => a == b
  | .num a, .num b => a == b
  | .str a, .str b => a == b
  | .arr a, .arr b => go a b
  | .obj a, .obj b => goObj a b
  | _, _ => false
where
  go : List ScalarValue → List ScalarValue → Bool
    | [], [] => true
    | x :: xs, y :: ys => x.beq y && go xs ys
    | _, _ => false
  goObj : List (String × ScalarValue) → List (String × ScalarValue) → Bool
    | [], [] => true
    | (k, x) :: xs, (l, y) :: ys => k == l && x.beq y && goObj xs ys
    | _, _ => false

instance : BEq ScalarValue := ⟨ScalarValue.beq⟩

/-- A top-level map from key to scalar value: the model of `tera::Map`
inside objects and of the `tera::Context` held by the scalar store. -/
abbrev ScalarMap := List (String × ScalarValue)

/-- Map lookup (`Map::get`). -/
def mapGet (m : ScalarMap) (k : String) : Option ScalarValue :=
  match m with
  | [] => none
  | (k', v) :: rest => if k' = k then some v else mapGet rest k

/-- Map insert (`Map::insert`): replace the value of an existing key in
place, or append the new binding. -/
def mapInsert (m : ScalarMap) (k : String) (v : ScalarValue) : ScalarMap :=
  match m with
  | [] => [(k, v)]
  | (k', v') :: rest =>
      if k' = k then (k', v) :: rest else (k', v') :: mapInsert rest k v

/-- Map removal (`Context::remove`): drop the binding of `k`. -/
def mapRemove (m : ScalarMap) (k : String) : ScalarMap :=
  match m with
  | [] => []
  | (k', v') :: rest =>
      if k' = k then rest else (k', v') :: mapRemove rest k

/-- The walk of `insert_at_path` (`src/values/helpers.rs`) over the
segments after the namespace segment.  Returns the updated subtree
together with an error message when the walk hits a non-object.  Like the
Rust `&mut` original, intermediate objects created by `or_insert` are kept
even when a later segment errors. -/
def insertWalk (current : ScalarValue) (rest : List String)
    (value : ScalarValue) : ScalarValue × Option String :=
  match rest with
  | [] => (current, none)
  | [leaf] =>
      match current with
      | .obj m => (.obj (mapInsert m leaf value), none)
      | _ => (current,
          some ("Cannot insert into non-object ScalarValue at segment " ++ leaf))
  | seg :: rest' =>
      match current with
      | .obj m =>
          let child := (mapGet m seg).getD (.obj [])
          let r := insertWalk child rest' value
          (.obj (mapInsert m seg r.1), r.2)
      | _ => (current,
          some ("Cannot insert into non-object ScalarValue at segment " ++ seg))

/-- `insert_at_path` (`src/values/helpers.rs`): insert `value` at `path`
inside `root`, skipping the first (namespace) segment.  A path with fewer
than two segments performs no write. -/
def insert_at_path (root : ScalarValue) (path : List String)
    (value : ScalarValue) : ScalarValue × Option String :=
  match path with
  | [] => (root, some "StorePath has no segments")
  | _ :: rest => insertWalk root rest value

/-- The walk of `get_at_path` over the segments after the namespace. -/
def getWalk (current : ScalarValue) : List String → Option ScalarValue
  | [] => some current
  | seg :: rest =>
      match current with
      | .obj m =>
          match mapGet m seg with
          | some next => getWalk next rest
          | none => none
      | _ => none

/-- `get_at_path` (`src/values/helpers.rs`). -/
def get_at_path (root : ScalarValue) (path : List String) : Option ScalarValue :=
  match path with
  | [] => none
  | _ :: rest => getWalk root rest

/-- `ScalarStore::insert` (`src/values/scalar.rs`): take the namespace
root out of the context (an empty object when absent), run
`insert_at_path` on it, and put it back.  On an `insert_at_path` error the
`?` operator returns before the root is re-inserted, so the namespace
entry stays removed. -/
def ScalarStore.insert (st : ScalarMap) (key : List String)
    (value : ScalarValue) : ScalarMap × Option String :=
  match key.head? with
  | none => (st, some "StorePath has no namespace")
  | some ns =>
      let root := (mapGet st ns).getD (.obj [])
      let st' := mapRemove st ns
      let r := insert_at_path root key value
      match r.2 with
      | some e => (st', some e)
      | none => (mapInsert st' ns r.1, none)

/-- `ScalarStore::get` (`src/values/scalar.rs`): resolve the namespace
root and walk the remaining segments; `none` on any missing segment. -/
def ScalarStore.get (st : ScalarMap) (key : List String) :
    Except String (Option ScalarValue) :=
  match key.head? with
  | none => .error "StorePath has no namespace"
  | some ns =>
      match mapGet st ns with
      | none => .ok none
      | some root => .ok (get_at_path root key)

/-- The successful-lookup view of `ScalarStore.get`. -/
def ScalarStore.getOk (st : ScalarMap) (key : List String) : Option ScalarValue :=
  match ScalarStore.get st key with
  | .ok v => v
  | .error _ => none

/-- `ScalarStore::remove` (`src/values/scalar.rs`): remove the top-level
namespace entry of the key. -/
def ScalarStore.remove (st : ScalarMap) (key : List String) :
    ScalarMap × Except String (Option ScalarValue) :=
  match key.head? with
  | none => (st, .error "StorePath has no namespace")
  | some ns => (mapRemove st ns, .ok (mapGet st ns))

/-- Modelled from the spec: `ScalarStore::insert_raw` is called by the
execution driver (`src/pipeline/ready.rs`) but its definition is not part
of the sources at hand.  Per the spec, "a raw insertion places a value
directly under a single top-level key". -/
def ScalarStore.insert_raw (st : ScalarMap) (name : String)
    (value : ScalarValue) : ScalarMap :=
  mapInsert st name value

/-! ### Map lemmas -/

theorem mapGet_mapInsert_self (m : ScalarMap) (k : String) (v : ScalarValue) :
    mapGet (mapInsert m k v) k = some v := by
  induction m with
  | nil => simp [mapInsert, mapGet]
  | cons kv rest ih =>
      obtain ⟨a, b⟩ := kv
      by_cases h : a = k
      · simp [mapInsert, mapGet, h]
      · simp [mapInsert, mapGet, h, ih]

theorem mapGet_mapInsert_ne (m : ScalarMap) (k k' : String) (v : ScalarValue)
    (h : k' ≠ k) : mapGet (mapInsert m k v) k' = mapGet m k' := by
  induction m with
  | nil => simp [mapInsert, mapGet, Ne.symm h]
  | cons kv rest ih =>
      obtain ⟨a, b⟩ := kv
      by_cases hk : a = k
      · subst hk
        simp [mapInsert, mapGet, Ne.symm h, ih]
      · by_cases hk' : a = k'
        · simp [mapInsert, mapGet, hk, hk', h]
        · simp [mapInsert, mapGet, hk, hk', ih]

theorem mapGet_mapRemove_ne (m : ScalarMap) (k k' : String) (h : k' ≠ k) :
    mapGet (mapRemove m k) k' = mapGet m k' := by
  induction m with
  | nil => simp [mapRemove]
  | cons kv rest ih =>
      obtain ⟨a, b⟩ := kv
      by_cases hk : a = k
      · subst hk
        simp [mapRemove, mapGet, Ne.symm h, ih]
      · by_cases hk' : a = k'
        · simp [mapRemove, mapGet, hk, hk', h]
        · simp [mapRemove, mapGet, hk, hk', ih]

/-! ### Frame and write lemmas for the insertion walk -/

theorem insertWalk_frame : ∀ (rest : List String) (root v : ScalarValue)
    (q : List String), ¬ rest <+: q → ¬ q <+: rest →
    getWalk (insertWalk root rest v).1 q = getWalk root q
  | [], root, v, q, h1, _ => absurd List.nil_prefix h1
  | [leaf], root, v, q, h1, h2 => by
      match root with
      | .null | .bool _ | .num _ | .str _ | .arr _ => rfl
      | .obj m =>
          match q with
          | [] => exact absurd List.nil_prefix h2
          | q0 :: t =>
              have hne : q0 ≠ leaf := by
                intro h
                subst h
                match t with
                | [] => exact h2 (List.prefix_refl _)
                | _ :: _ => exact h1 ⟨_, rfl⟩
              simp [insertWalk, getWalk, mapGet_mapInsert_ne m leaf q0 v hne]
  | seg :: s2 :: rest', root, v, q, h1, h2 => by
      match root with
      | .null | .bool _ | .num _ | .str _ | .arr _ => rfl
      | .obj m =>
          match q with
          | [] => exact absurd List.nil_prefix h2
          | q0 :: t =>
              by_cases hq : q0 = seg
              · subst hq
                have h1' : ¬ (s2 :: rest') <+: t := fun hp =>
                  h1 (List.cons_prefix_cons.mpr ⟨rfl, hp⟩)
                have h2' : ¬ t <+: (s2 :: rest') := fun hp =>
                  h2 (List.cons_prefix_cons.mpr ⟨rfl, hp⟩)
                have ih := insertWalk_frame (s2 :: rest')
                  ((mapGet m q0).getD (.obj [])) v t h1' h2'
                simp only [insertWalk, getWalk, mapGet_mapInsert_self]
                rw [ih]
                match hg : mapGet m q0 with
                | some next => simp [hg]
                | none =>
                    simp only [hg, Option.getD]
                    match t with
                    | [] => exact absurd (List.cons_prefix_cons.mpr
                        ⟨rfl, List.nil_prefix⟩) h2
                    | t0 :: t' => rfl
              · simp [insertWalk, getWalk, mapGet_mapInsert_ne m seg q0 _ hq]

theorem insertWalk_sets : ∀ (rest : List String) (root v : ScalarValue),
    rest ≠ [] → (insertWalk root rest v).2 = none →
    getWalk (insertWalk root rest v).1 rest = some v
  | [], _, _, h, _ => absurd rfl h
  | [leaf], root, v, _, herr => by
      match root with
      | .null | .bool _ | .num _ | .str _ | .arr _ => simp [insertWalk] at herr
      | .obj m => simp [insertWalk, getWalk, mapGet_mapInsert_self]
  | seg :: s2 :: rest', root, v, _, herr => by
      match root with
      | .null | .bool _ | .num _ | .str _ | .arr _ => simp [insertWalk] at herr
      | .obj m =>
          have herr' : (insertWalk ((mapGet m seg).getD (.obj [])) (s2 :: rest') v).2 = none := by
            simpa [insertWalk] using herr
          have ih := insertWalk_sets (s2 :: rest')
            ((mapGet m seg).getD (.obj [])) v (by simp) herr'
          simp only [insertWalk, getWalk, mapGet_mapInsert_self]
          exact ih

theorem ScalarStore.insert_cons (st : ScalarMap) (ns : String)
    (rest : List String) (v : ScalarValue) :
    ScalarStore.insert st (ns :: rest) v =
      match (insertWalk ((mapGet st ns).getD (.obj [])) rest v).2 with
      | some e => (mapRemove st ns, some e)
      | none =>
          (mapInsert (mapRemove st ns) ns
            (insertWalk ((mapGet st ns).getD (.obj [])) rest v).1, none) := rfl

theorem ScalarStore.getOk_cons (st : ScalarMap) (ns : String)
    (qrest : List String) :
    ScalarStore.getOk st (ns :: qrest) =
      match mapGet st ns with
      | none => none
      | some root => getWalk root qrest := by
  unfold ScalarStore.getOk ScalarStore.get
  match h : mapGet st ns with
  | none => simp [h]
  | some root => simp [h, get_at_path]

/-- Claim C10: inserting at a one-segment path `[ns]` returns `Ok(())` but
performs no write: `insert_at_path` does not touch the root for paths of
fewer than two segments, so the store afterwards holds the previous root
under `ns` (an empty object when it was absent) and never the supplied
value — the final store is the same whatever value was passed. -/
theorem C10_single_segment_insert_discarded (st : ScalarMap) (ns : String)
    (v : ScalarValue) :
    insert_at_path ((mapGet st ns).getD (.obj [])) [ns] v =
      ((mapGet st ns).getD (.obj []), none) ∧
    (ScalarStore.insert st [ns] v).2 = none ∧
    ∀ k, mapGet (ScalarStore.insert st [ns] v).1 k =
      if k = ns then some ((mapGet st ns).getD (.obj [])) else mapGet st k := by
  refine ⟨rfl, rfl, ?_⟩
  intro k
  by_cases hk : k = ns
  · subst hk
    simp [ScalarStore.insert_cons, insertWalk, mapGet_mapInsert_self]
  · simp only [ScalarStore.insert_cons, insertWalk]
    rw [mapGet_mapInsert_ne _ _ _ _ hk, mapGet_mapRemove_ne _ _ _ hk, if_neg hk]

/-- Claim C4, counterexample: with the namespace root
`ns ↦ {a: "x", c: 1}`, inserting at `[ns, a, b]` hits the non-object at
`a` and returns an error — and the erroring insert removes the previously
written sibling `[ns, c]` from the store (the whole namespace root is
dropped), contradicting the claim's "never removes sibling keys …
including when the insert itself returns an error". -/
theorem C4_error_insert_drops_siblings_counterexample :
    ScalarStore.getOk [("ns", ScalarValue.obj [("a", .str "x"), ("c", .num 1)])]
      ["ns", "c"] = some (.num 1) ∧
    (ScalarStore.insert
      [("ns", ScalarValue.obj [("a", .str "x"), ("c", .num 1)])]
      ["ns", "a", "b"] (.num 2)).2.isSome = true ∧
    ScalarStore.getOk
      (ScalarStore.insert
        [("ns", ScalarValue.obj [("a", .str "x"), ("c", .num 1)])]
        ["ns", "a", "b"] (.num 2)).1 ["ns", "c"] = none :=
  ⟨rfl, rfl, rfl⟩

/-- Claim C4 (amended): insertion at `[ns, s₁, …, sₖ, leaf]` (k ≥ 0)
creates missing intermediate objects and sets the leaf, starting from an
empty object when the root at `ns` is absent; when the insert returns
`Ok`, no sibling key previously written under `[ns, …]` is removed.  When
the insert returns an error, the namespace root that was taken out for
the update is not restored: the store is left without the `ns` entry. -/
theorem C4_insert_creates_and_preserves_siblings (st : ScalarMap)
    (ns : String) (rest : List String) (v : ScalarValue) :
    (∀ st', ScalarStore.insert st (ns :: rest) v = (st', none) →
      (rest ≠ [] → ScalarStore.getOk st' (ns :: rest) = some v) ∧
      (∀ q, ¬ (ns :: rest) <+: q → ¬ q <+: (ns :: rest) →
        ScalarStore.getOk st' q = ScalarStore.getOk st q)) ∧
    (∀ st' e, ScalarStore.insert st (ns :: rest) v = (st', some e) →
      st' = mapRemove st ns) := by
  constructor
  · intro st' h
    rw [ScalarStore.insert_cons] at h
    set root := (mapGet st ns).getD (.obj []) with hroot
    match herr : (insertWalk root rest v).2 with
    | some e => rw [herr] at h; exact absurd (congrArg Prod.snd h) (by simp)
    | none =>
        rw [herr] at h
        have hst' : st' = mapInsert (mapRemove st ns) ns (insertWalk root rest v).1 :=
          (congrArg Prod.fst h).symm
        subst hst'
        constructor
        · intro hne
          rw [ScalarStore.getOk_cons, mapGet_mapInsert_self]
          exact insertWalk_sets rest root v hne herr
        · intro q h1 h2
          match q with
          | [] => exact absurd List.nil_prefix h2
          | nsq :: qrest =>
              by_cases hq : nsq = ns
              · subst hq
                have h1' : ¬ rest <+: qrest := fun hp =>
                  h1 (List.cons_prefix_cons.mpr ⟨rfl, hp⟩)
                have h2' : ¬ qrest <+: rest := fun hp =>
                  h2 (List.cons_prefix_cons.mpr ⟨rfl, hp⟩)
                rw [ScalarStore.getOk_cons, mapGet_mapInsert_self,
                  ScalarStore.getOk_cons]
                have hframe := insertWalk_frame rest root v qrest h1' h2'
                show getWalk (insertWalk root rest v).1 qrest = _
                rw [hframe]
                match hg : mapGet st nsq with
                | some r0 => rw [hroot, hg]; rfl
                | none =>
                    rw [hroot, hg]
                    match qrest with
                    | [] => exact absurd (List.cons_prefix_cons.mpr
                        ⟨rfl, List.nil_prefix⟩) h2
                    | q0 :: t => rfl
              · rw [ScalarStore.getOk_cons, ScalarStore.getOk_cons,
                  mapGet_mapInsert_ne _ _ _ _ hq, mapGet_mapRemove_ne _ _ _ hq]
  · intro st' e h
    rw [ScalarStore.insert_cons] at h
    match herr : (insertWalk ((mapGet st ns).getD (.obj [])) rest v).2 with
    | some e' => rw [herr] at h; exact (congrArg Prod.fst h).symm
    | none => rw [herr] at h; exact absurd (congrArg Prod.snd h) (by simp)

/-- Witness for the amended C4 theorem at a concrete input: inserting
`2` at `[ns, a]` over the store `ns ↦ {c: 1}` succeeds, sets the leaf,
and preserves the sibling `[ns, c]`. -/
theorem C4_insert_creates_and_preserves_siblings_witness :
    ScalarStore.getOk
      [("ns", ScalarValue.obj [("c", .num 1), ("a", .num 2)])] ["ns", "a"] =
      some (.num 2) ∧
    ScalarStore.getOk
      [("ns", ScalarValue.obj [("c", .num 1), ("a", .num 2)])] ["ns", "c"] =
      ScalarStore.getOk [("ns", ScalarValue.obj [("c", .num 1)])] ["ns", "c"] := by
  have h := (C4_insert_creates_and_preserves_siblings
    [("ns", ScalarValue.obj [("c", .num 1)])] "ns" ["a"] (.num 2)).1
    [("ns", ScalarValue.obj [("c", .num 1), ("a", .num 2)])] rfl
  refine ⟨h.1 (by simp), h.2 ["ns", "c"] ?_ ?_⟩
  · intro hp
    rcases List.cons_prefix_cons.mp hp with ⟨-, hp'⟩
    rcases List.cons_prefix_cons.mp hp' with ⟨hc, -⟩
    exact absurd hc (by decide)
  · intro hp
    rcases List.cons_prefix_cons.mp hp with ⟨-, hp'⟩
    rcases List.cons_prefix_cons.mp hp' with ⟨hc, -⟩
    exact absurd hc (by decide)

/-! ### Store paths (`src/values/mod.rs`) -/

/-- `StorePath::to_dotted`: join the segments with `.` (the Rust
`segments.join(".")`, written here at the character level). -/
def StorePath.to_dotted (p : List String) : String :=
  String.mk (List.intercalate ['.'] (p.map String.toList))

/-- `StorePath::from_dotted`: split the dotted string on `.` (the Rust
`dotted.split('.')`, written here at the character level). -/
def StorePath.from_dotted (s : String) : List String :=
  (s.toList.splitOn '.').map String.mk

theorem string_mk_toList (s : String) : String.mk s.toList = s := rfl

/-- Claim C8, counterexample: the segment list `["a.b"]` contains no
empty string, yet `from_dotted (to_dotted ["a.b"]) = ["a", "b"]`, so the
first half of the round-trip claim fails as stated. -/
theorem C8_roundtrip_counterexample :
    (∀ t ∈ (["a.b"] : List String), t ≠ "") ∧
    StorePath.from_dotted (StorePath.to_dotted ["a.b"]) = ["a", "b"] ∧
    (["a", "b"] : List String) ≠ ["a.b"] := by
  refine ⟨by decide, by decide, by decide⟩

/-- Claim C8 (amended): for every non-empty segment sequence whose
segments are non-empty and contain no `.` character,
`from_dotted (to_dotted p) = p`; and for every dotted string without
empty components, `to_dotted (from_dotted s) = s`. -/
theorem C8_storepath_roundtrip (p : List String) (s : String)
    (hp : p ≠ []) (hseg : ∀ t ∈ p, t ≠ "" ∧ '.' ∉ t.toList)
    (_hs : ∀ t ∈ StorePath.from_dotted s, t ≠ "") :
    StorePath.from_dotted (StorePath.to_dotted p) = p ∧
    StorePath.to_dotted (StorePath.from_dotted s) = s := by
  constructor
  · unfold StorePath.from_dotted StorePath.to_dotted
    have hx : ∀ l ∈ p.map String.toList, '.' ∉ l := by
      intro l hl
      rcases List.mem_map.mp hl with ⟨t, ht, rfl⟩
      exact (hseg t ht).2
    have hls : p.map String.toList ≠ [] := by
      simpa using hp
    rw [show (String.mk (List.intercalate ['.'] (p.map String.toList))).toList =
        List.intercalate ['.'] (p.map String.toList) from rfl]
    rw [List.splitOn_intercalate (p.map String.toList) '.' hx hls]
    rw [List.map_map, show String.mk ∘ String.toList = (id : String → String) from rfl,
      List.map_id]
  · unfold StorePath.from_dotted StorePath.to_dotted
    rw [List.map_map]
    rw [show (String.toList ∘ String.mk) = id from rfl]
    rw [List.map_id]
    rw [List.intercalate_splitOn]
    exact string_mk_toList s

/-- Witness for the amended C8 round trip at concrete inputs. -/
theorem C8_storepath_roundtrip_witness :
    StorePath.from_dotted (StorePath.to_dotted ["a", "b"]) = ["a", "b"] ∧
    StorePath.to_dotted (StorePath.from_dotted "x.y") = "x.y" :=
  C8_storepath_roundtrip ["a", "b"] "x.y" (by decide) (by decide) (by decide)

/-! ### Store-level helper lemmas -/

theorem store_insert_ok_sets (st st' : ScalarMap) (ns : String)
    (rest : List String) (v : ScalarValue)
    (h : ScalarStore.insert st (ns :: rest) v = (st', none)) (hne : rest ≠ []) :
    ScalarStore.getOk st' (ns :: rest) = some v := by
  rw [ScalarStore.insert_cons] at h
  match herr : (insertWalk ((mapGet st ns).getD (.obj [])) rest v).2 with
  | some e => rw [herr] at h; exact absurd (congrArg Prod.snd h) (by simp)
  | none =>
      rw [herr] at h
      have hst' : st' = _ := (congrArg Prod.fst h).symm
      subst hst'
      rw [ScalarStore.getOk_cons, mapGet_mapInsert_self]
      exact insertWalk_sets rest _ v hne herr

theorem store_insert_ok_frame (st st' : ScalarMap) (ns : String)
    (rest : List String) (v : ScalarValue)
    (h : ScalarStore.insert st (ns :: rest) v = (st', none))
    (q : List String) (h1 : ¬ (ns :: rest) <+: q) (h2 : ¬ q <+: (ns :: rest)) :
    ScalarStore.getOk st' q = ScalarStore.getOk st q := by
  rw [ScalarStore.insert_cons] at h
  set root := (mapGet st ns).getD (.obj []) with hroot
  match herr : (insertWalk root rest v).2 with
  | some e => rw [herr] at h; exact absurd (congrArg Prod.snd h) (by simp)
  | none =>
      rw [herr] at h
      have hst' : st' = mapInsert (mapRemove st ns) ns (insertWalk root rest v).1 :=
        (congrArg Prod.fst h).symm
      subst hst'
      match q with
      | [] => exact absurd List.nil_prefix h2
      | nsq :: qrest =>
          by_cases hq : nsq = ns
          · subst hq
            have h1' : ¬ rest <+: qrest := fun hp =>
              h1 (List.cons_prefix_cons.mpr ⟨rfl, hp⟩)
            have h2' : ¬ qrest <+: rest := fun hp =>
              h2 (List.cons_prefix_cons.mpr ⟨rfl, hp⟩)
            rw [ScalarStore.getOk_cons, mapGet_mapInsert_self, ScalarStore.getOk_cons]
            have hframe := insertWalk_frame rest root v qrest h1' h2'
            show getWalk (insertWalk root rest v).1 qrest = _
            rw [hframe]
            match hg : mapGet st nsq with
            | some r0 => rw [hroot, hg]; rfl
            | none =>
                rw [hroot, hg]
                match qrest with
                | [] => exact absurd (List.cons_prefix_cons.mpr
                    ⟨rfl, List.nil_prefix⟩) h2
                | q0 :: t => rfl
          · rw [ScalarStore.getOk_cons, ScalarStore.getOk_cons,
              mapGet_mapInsert_ne _ _ _ _ hq, mapGet_mapRemove_ne _ _ _ hq]

theorem store_insert_err (st st' : ScalarMap) (ns : String)
    (rest : List String) (v : ScalarValue) (e : String)
    (h : ScalarStore.insert st (ns :: rest) v = (st', some e)) :
    st' = mapRemove st ns := by
  rw [ScalarStore.insert_cons] at h
  match herr : (insertWalk ((mapGet st ns).getD (.obj [])) rest v).2 with
  | some e' => rw [herr] at h; exact (congrArg Prod.fst h).symm
  | none => rw [herr] at h; exact absurd (congrArg Prod.snd h) (by simp)

/-! ### Well-formed stores (unique top-level keys) -/

/-- A store is well formed when its top-level keys are distinct (maps in
the Rust source are genuine maps; the association-list model makes this
an explicit invariant). -/
def StoreWF (st : ScalarMap) : Prop := (st.map Prod.fst).Nodup

theorem mapRemove_keys_sublist (st : ScalarMap) (k : String) :
    ((mapRemove st k).map Prod.fst).Sublist (st.map Prod.fst) := by
  induction st with
  | nil => simp [mapRemove]
  | cons kv rest ih =>
      obtain ⟨a, b⟩ := kv
      by_cases h : a = k
      · simp [mapRemove, h]
      · simpa [mapRemove, h] using ih

theorem StoreWF.remove {st : ScalarMap} (h : StoreWF st) (k : String) :
    StoreWF (mapRemove st k) :=
  (mapRemove_keys_sublist st k).nodup h

theorem not_key_mapRemove_of_WF {st : ScalarMap} (h : StoreWF st) (k : String) :
    k ∉ (mapRemove st k).map Prod.fst := by
  induction st with
  | nil => simp [mapRemove]
  | cons kv rest ih =>
      obtain ⟨a, b⟩ := kv
      rcases List.nodup_cons.mp h with ⟨ha, hrest⟩
      by_cases hk : a = k
      · subst hk
        simpa [mapRemove] using ha
      · simp only [mapRemove, if_neg hk, List.map_cons, List.mem_cons]
        push_neg
        exact ⟨fun hc => hk hc.symm, ih hrest⟩

theorem mapGet_eq_none_of_not_key (m : ScalarMap) (k : String)
    (h : k ∉ m.map Prod.fst) : mapGet m k = none := by
  induction m with
  | nil => rfl
  | cons kv rest ih =>
      obtain ⟨a, b⟩ := kv
      simp only [List.map_cons, List.mem_cons] at h
      push_neg at h
      have h1 : ¬ a = k := fun hc => h.1 hc.symm
      simp [mapGet, h1, ih h.2]

theorem mapGet_mapRemove_self_of_WF {st : ScalarMap} (h : StoreWF st)
    (k : String) : mapGet (mapRemove st k) k = none :=
  mapGet_eq_none_of_not_key _ _ (not_key_mapRemove_of_WF h k)

theorem mapInsert_keys (m : ScalarMap) (k : String) (v : ScalarValue) :
    (mapInsert m k v).map Prod.fst =
      if k ∈ m.map Prod.fst then m.map Prod.fst else m.map Prod.fst ++ [k] := by
  induction m with
  | nil => simp [mapInsert]
  | cons kv rest ih =>
      obtain ⟨a, b⟩ := kv
      by_cases h : a = k
      · simp [mapInsert, h]
      · have h2 : ¬ k = a := fun hc => h hc.symm
        simp only [mapInsert, if_neg h, List.map_cons, ih, List.mem_cons]
        by_cases hk : k ∈ rest.map Prod.fst
        · simp [hk, h2]
        · simp [hk, h2]

theorem StoreWF.insertKey {st : ScalarMap} (h : StoreWF st) (k : String)
    (v : ScalarValue) : StoreWF (mapInsert st k v) := by
  unfold StoreWF
  rw [mapInsert_keys]
  by_cases hk : k ∈ st.map Prod.fst
  · simpa [hk] using h
  · simp only [hk, if_false]
    refine List.Nodup.append h (List.nodup_singleton k) ?_
    intro a ha hb
    rw [List.mem_singleton] at hb
    subst hb
    exact hk ha

theorem StoreWF.storeInsert {st : ScalarMap} (h : StoreWF st)
    (p : List String) (v : ScalarValue) :
    StoreWF (ScalarStore.insert st p v).1 := by
  match p with
  | [] => exact h
  | ns :: rest =>
      rw [ScalarStore.insert_cons]
      match (insertWalk ((mapGet st ns).getD (.obj [])) rest v).2 with
      | some e => exact h.remove ns
      | none => exact (h.remove ns).insertKey ns _

/-! ### The `ExecutableWrapper` protocol (`src/pipeline/traits.rs`) -/

/-- `parse_scalar` (`src/values/helpers.rs`).  The Rust function tries an
`f64` parse between the integer parse and the string fallback;
non-integer numeric strings are outside the integer model used here and
fall to the string case (no proved property depends on which branch a
rendered guard string selects — the invariants are proved for every
branch). -/
def parse_scalar (s : String) : ScalarValue :=
  if s = "true" then .bool true
  else if s = "false" then .bool false
  else if s = "null" then .null
  else
    match s.toInt? with
    | some n => .num n
    | none => .str s

/-- `is_truthy` (`src/values/helpers.rs`). -/
def is_truthy : ScalarValue → Bool
  | .null => false
  | .bool b => b
  | .num n => n != 0
  | .str s => !s.isEmpty && s != "false"
  | .arr a => !a.isEmpty
  | .obj o => !o.isEmpty

/-- `StorePath::with_segment` (`src/values/mod.rs`). -/
def StorePath.with_segment (p : List String) (segment : String) : List String :=
  p ++ [segment]

/-- `InsertBatch::string` (`src/values/helpers.rs`). -/
def InsertBatch.string (st : ScalarMap) (pfx : List String)
    (segment : String) (value : String) : ScalarMap × Option String :=
  ScalarStore.insert st (StorePath.with_segment pfx segment) (.str value)

/-- `InsertBatch::u64` (`src/values/helpers.rs`); `u64` values are
embedded as non-negative integers. -/
def InsertBatch.u64 (st : ScalarMap) (pfx : List String)
    (segment : String) (value : Nat) : ScalarMap × Option String :=
  ScalarStore.insert st (StorePath.with_segment pfx segment) (.num value)

def EXECUTION_STATUS_SUCCESS : String := "success"
def EXECUTION_STATUS_SKIPPED : String := "skipped"
def EXECUTION_STATUS_ERROR : String := "error"
def EXECUTION_STATUS_CANCELLED : String := "cancelled"

/-- The `format!("\x7b\x7b {} \x7d\x7d", condition)` wrapping of the
`when` expression. -/
def whenTemplate (condition : String) : String :=
  "\x7b\x7b " ++ condition ++ " \x7d\x7d"

/-- The `batch.string("status", …)?` / `batch.u64("duration_ms", …)?`
pair of the skip and cancellation paths of `ExecutableWrapper::execute`
(the same two statements appear verbatim in both paths of the source; a
`?` failure of either insert returns that error). -/
def writeStatusThenDuration (st : ScalarMap) (pfx : List String)
    (statusStr : String) (ems : Nat) : ScalarMap × Except String Unit :=
  let r1 := InsertBatch.string st pfx "status" statusStr
  match r1.2 with
  | some e => (r1.1, .error e)
  | none =>
      let r2 := InsertBatch.u64 r1.1 pfx "duration_ms" ems
      match r2.2 with
      | some e => (r2.1, .error e)
      | none => (r2.1, .ok ())

/-- The `batch.u64("duration_ms", …)?` then `batch.string("status", …)?`
tail of the main path of `ExecutableWrapper::execute`; on success the
inner command's `result` is returned unchanged. -/
def writeDurationThenStatus (st : ScalarMap) (pfx : List String)
    (ems : Nat) (statusStr : String) (result : Except String Unit) :
    ScalarMap × Except String Unit :=
  let r1 := InsertBatch.u64 st pfx "duration_ms" ems
  match r1.2 with
  | some e => (r1.1, .error e)
  | none =>
      let r2 := InsertBatch.string r1.1 pfx "status" statusStr
      match r2.2 with
      | some e => (r2.1, .error e)
      | none => (r2.1, result)

/-- The tail of `ExecutableWrapper::execute` after the `when` guard: the
cancellation check, the inner command, and the duration/status writes. -/
def ExecutableWrapper.executeAfterGuard
    (inner : ScalarMap → ScalarMap × Except String Unit) (canceled : Bool)
    (elapsed_cancel elapsed_run : Nat) (pfx : List String) (st : ScalarMap) :
    ScalarMap × Except String Unit :=
  if canceled then
    writeStatusThenDuration st pfx EXECUTION_STATUS_CANCELLED elapsed_cancel
  else
    match inner st with
    | (st1, result) =>
        writeDurationThenStatus st1 pfx elapsed_run
          (match result with
            | .ok _ => EXECUTION_STATUS_SUCCESS
            | .error _ => EXECUTION_STATUS_ERROR)
          result

/-- `ExecutableWrapper::execute` (`src/pipeline/traits.rs`).  External
collaborators are parameters: `subst` is template rendering against the
current store (`context.substitute`), `canceled` the
`context.extensions().is_canceled()` flag, `inner` the wrapped command's
effect on the scalar store, and the wall-clock `elapsed` readings are
abstracted as naturals (one per read site). -/
def ExecutableWrapper.execute
    (subst : ScalarMap → String → Except String String)
    (inner : ScalarMap → ScalarMap × Except String Unit)
    (when? : Option String) (canceled : Bool)
    (elapsed_skip elapsed_cancel elapsed_run : Nat)
    (pfx : List String) (st : ScalarMap) : ScalarMap × Except String Unit :=
  match when? with
  | some condition =>
      match subst st (whenTemplate condition) with
      | .error e => (st, .error e)
      | .ok rendered =>
          if !(is_truthy (parse_scalar rendered)) then
            writeStatusThenDuration st pfx EXECUTION_STATUS_SKIPPED elapsed_skip
          else
            ExecutableWrapper.executeAfterGuard inner canceled
              elapsed_cancel elapsed_run pfx st
  | none =>
      ExecutableWrapper.executeAfterGuard inner canceled
        elapsed_cancel elapsed_run pfx st

/-! ### Helper lemmas for the wrapper proofs -/

theorem append_last_ne_head (pfx : List String) (a b : String) (h : a ≠ b) :
    ¬ (pfx ++ [a]) <+: (pfx ++ [b]) := by
  intro hp
  have hlen : (pfx ++ [a]).length = (pfx ++ [b]).length := by simp
  have heq := hp.eq_of_length hlen
  simp at heq
  exact h heq

/-- A walk is clean when every existing value on it is an object: exactly
the condition under which `insert_at_path` succeeds. -/
def spineClean : ScalarValue → List String → Bool
  | _, [] => true
  | current, seg :: rest =>
      match current with
      | .obj m =>
          match mapGet m seg with
          | some next => spineClean next rest
          | none => true
      | _ => false

theorem spineClean_obj_empty (rest : List String) :
    spineClean (.obj []) rest = true := by
  match rest with
  | [] => rfl
  | seg :: rest' => simp [spineClean, mapGet]

theorem insertWalk_ok_of_clean : ∀ (rest : List String)
    (current v : ScalarValue), spineClean current rest = true →
    (insertWalk current rest v).2 = none
  | [], _, _, _ => rfl
  | [leaf], current, v, h => by
      match current with
      | .obj m => rfl
      | .null | .bool _ | .num _ | .str _ | .arr _ => simp [spineClean] at h
  | seg :: s2 :: rest', current, v, h => by
      match current with
      | .null | .bool _ | .num _ | .str _ | .arr _ => simp [spineClean] at h
      | .obj m =>
          show (insertWalk ((mapGet m seg).getD (.obj [])) (s2 :: rest') v).2 = none
          match hg : mapGet m seg with
          | some next =>
              have h' : spineClean next (s2 :: rest') = true := by
                simpa [spineClean, hg] using h
              exact insertWalk_ok_of_clean _ next v h'
          | none =>
              exact insertWalk_ok_of_clean _ (.obj []) v (spineClean_obj_empty _)

theorem store_insert_ok_of_clean (st : ScalarMap) (ns : String)
    (rest : List String) (v : ScalarValue)
    (h : spineClean ((mapGet st ns).getD (.obj [])) rest = true) :
    (ScalarStore.insert st (ns :: rest) v).2 = none := by
  rw [ScalarStore.insert_cons]
  rw [insertWalk_ok_of_clean rest _ v h]

theorem insertWalk_clean_after : ∀ (rest : List String)
    (current v : ScalarValue) (a b : String),
    (insertWalk current (rest ++ [a]) v).2 = none →
    spineClean (insertWalk current (rest ++ [a]) v).1 (rest ++ [b]) = true
  | [], current, v, a, b, h => by
      match current with
      | .null | .bool _ | .num _ | .str _ | .arr _ => simp [insertWalk] at h
      | .obj m =>
          show spineClean (.obj (mapInsert m a v)) [b] = true
          simp only [spineClean]
          match mapGet (mapInsert m a v) b with
          | some next => rfl
          | none => rfl
  | seg :: rest2, current, v, a, b, h => by
      match current with
      | .null | .bool _ | .num _ | .str _ | .arr _ =>
          rw [show (seg :: rest2) ++ [a] = seg :: (rest2 ++ [a]) from rfl] at h
          match hr : rest2 ++ [a] with
          | [] => exact absurd hr (by simp)
          | x :: xs => rw [hr] at h; simp [insertWalk] at h
      | .obj m =>
          rw [show (seg :: rest2) ++ [a] = seg :: (rest2 ++ [a]) from rfl] at h ⊢
          have hsh : insertWalk (.obj m) (seg :: (rest2 ++ [a])) v =
              (.obj (mapInsert m seg
                (insertWalk ((mapGet m seg).getD (.obj [])) (rest2 ++ [a]) v).1),
               (insertWalk ((mapGet m seg).getD (.obj [])) (rest2 ++ [a]) v).2) := by
            match hr : rest2 ++ [a] with
            | [] => exact absurd hr (by simp)
            | x :: xs => rfl
          rw [hsh] at h ⊢
          have ih := insertWalk_clean_after rest2
            ((mapGet m seg).getD (.obj [])) v a b h
          show spineClean (.obj (mapInsert m seg _)) (seg :: (rest2 ++ [b])) = true
          simp only [spineClean, mapGet_mapInsert_self]
          exact ih

theorem store_clean_after_insert (st st' : ScalarMap) (ns : String)
    (rest : List String) (v : ScalarValue) (a b : String)
    (h : ScalarStore.insert st (ns :: (rest ++ [a])) v = (st', none)) :
    spineClean ((mapGet st' ns).getD (.obj [])) (rest ++ [b]) = true := by
  rw [ScalarStore.insert_cons] at h
  match herr : (insertWalk ((mapGet st ns).getD (.obj [])) (rest ++ [a]) v).2 with
  | some e => rw [herr] at h; exact absurd (congrArg Prod.snd h) (by simp)
  | none =>
      rw [herr] at h
      have hst' : st' = _ := (congrArg Prod.fst h).symm
      subst hst'
      rw [mapGet_mapInsert_self]
      exact insertWalk_clean_after rest _ v a b herr

theorem getOk_none_after_insert_err (st st' : ScalarMap) (ns : String)
    (rest : List String) (v : ScalarValue) (e : String) (hwf : StoreWF st)
    (h : ScalarStore.insert st (ns :: rest) v = (st', some e)) (q : List String) :
    ScalarStore.getOk st' (ns :: q) = none := by
  have := store_insert_err st st' ns rest v e h
  subst this
  rw [ScalarStore.getOk_cons, mapGet_mapRemove_self_of_WF hwf]

/-! ### Slot lemmas for the wrapper's write pairs -/

theorem writeStatusThenDuration_status_slot (st : ScalarMap) (p0 : String)
    (prest : List String) (sv : String) (ems : Nat) (hwf : StoreWF st) :
    ScalarStore.getOk (writeStatusThenDuration st (p0 :: prest) sv ems).1
      (p0 :: (prest ++ ["status"])) = none ∨
    ScalarStore.getOk (writeStatusThenDuration st (p0 :: prest) sv ems).1
      (p0 :: (prest ++ ["status"])) = some (.str sv) := by
  simp only [writeStatusThenDuration]
  rcases h1 : InsertBatch.string st (p0 :: prest) "status" sv with ⟨st1, err1⟩
  have h1' : ScalarStore.insert st (p0 :: (prest ++ ["status"])) (.str sv) =
      (st1, err1) := h1
  match err1 with
  | some e =>
      exact .inl (getOk_none_after_insert_err st st1 p0 (prest ++ ["status"])
        (.str sv) e hwf h1' (prest ++ ["status"]))
  | none =>
      have hslot1 := store_insert_ok_sets st st1 p0 (prest ++ ["status"])
        (.str sv) h1' (by simp)
      have hwf1 : StoreWF st1 := by
        have := hwf.storeInsert (p0 :: (prest ++ ["status"])) (.str sv)
        rw [h1'] at this
        exact this
      rcases h2 : InsertBatch.u64 st1 (p0 :: prest) "duration_ms" ems with ⟨st2, err2⟩
      have h2' : ScalarStore.insert st1 (p0 :: (prest ++ ["duration_ms"]))
          (.num ems) = (st2, err2) := h2
      match err2 with
      | some e =>
          exact .inl (getOk_none_after_insert_err st1 st2 p0
            (prest ++ ["duration_ms"]) (.num ems) e hwf1 h2' (prest ++ ["status"]))
      | none =>
          refine .inr ?_
          have hframe := store_insert_ok_frame st1 st2 p0
            (prest ++ ["duration_ms"]) (.num ems) h2' (p0 :: (prest ++ ["status"]))
            (append_last_ne_head (p0 :: prest) "duration_ms" "status" (by decide))
            (append_last_ne_head (p0 :: prest) "status" "duration_ms" (by decide))
          rw [hframe, hslot1]

theorem writeDurationThenStatus_status_slot (st : ScalarMap) (p0 : String)
    (prest : List String) (ems : Nat) (sv : String)
    (result : Except String Unit) (hwf : StoreWF st)
    (hslot : ScalarStore.getOk st (p0 :: (prest ++ ["status"])) = none) :
    ScalarStore.getOk (writeDurationThenStatus st (p0 :: prest) ems sv result).1
      (p0 :: (prest ++ ["status"])) = none ∨
    ScalarStore.getOk (writeDurationThenStatus st (p0 :: prest) ems sv result).1
      (p0 :: (prest ++ ["status"])) = some (.str sv) := by
  simp only [writeDurationThenStatus]
  rcases h1 : InsertBatch.u64 st (p0 :: prest) "duration_ms" ems with ⟨st1, err1⟩
  have h1' : ScalarStore.insert st (p0 :: (prest ++ ["duration_ms"]))
      (.num ems) = (st1, err1) := h1
  match err1 with
  | some e =>
      exact .inl (getOk_none_after_insert_err st st1 p0 (prest ++ ["duration_ms"])
        (.num ems) e hwf h1' (prest ++ ["status"]))
  | none =>
      have hwf1 : StoreWF st1 := by
        have := hwf.storeInsert (p0 :: (prest ++ ["duration_ms"])) (.num ems)
        rw [h1'] at this
        exact this
      have hslot1 : ScalarStore.getOk st1 (p0 :: (prest ++ ["status"])) = none := by
        have hframe := store_insert_ok_frame st st1 p0
          (prest ++ ["duration_ms"]) (.num ems) h1' (p0 :: (prest ++ ["status"]))
          (append_last_ne_head (p0 :: prest) "duration_ms" "status" (by decide))
          (append_last_ne_head (p0 :: prest) "status" "duration_ms" (by decide))
        rw [hframe, hslot]
      rcases h2 : InsertBatch.string st1 (p0 :: prest) "status" sv with ⟨st2, err2⟩
      have h2' : ScalarStore.insert st1 (p0 :: (prest ++ ["status"]))
          (.str sv) = (st2, err2) := h2
      match err2 with
      | some e =>
          exact .inl (getOk_none_after_insert_err st1 st2 p0
            (prest ++ ["status"]) (.str sv) e hwf1 h2' (prest ++ ["status"]))
      | none =>
          exact .inr (store_insert_ok_sets st1 st2 p0 (prest ++ ["status"])
            (.str sv) h2' (by simp))

theorem afterGuard_status (inner : ScalarMap → ScalarMap × Except String Unit)
    (canceled : Bool) (e2 e3 : Nat) (p0 : String) (prest : List String)
    (st : ScalarMap) (hwf : StoreWF st)
    (hinit : ScalarStore.getOk st (p0 :: (prest ++ ["status"])) = none)
    (hinner_slot : ∀ s, ScalarStore.getOk (inner s).1 (p0 :: (prest ++ ["status"])) =
      ScalarStore.getOk s (p0 :: (prest ++ ["status"])))
    (hinner_wf : ∀ s, StoreWF s → StoreWF (inner s).1) (s' : String)
    (hs' : ScalarStore.getOk
      (ExecutableWrapper.executeAfterGuard inner canceled e2 e3 (p0 :: prest) st).1
      (p0 :: (prest ++ ["status"])) = some (.str s')) :
    s' = EXECUTION_STATUS_SUCCESS ∨ s' = EXECUTION_STATUS_ERROR ∨
    s' = EXECUTION_STATUS_CANCELLED := by
  unfold ExecutableWrapper.executeAfterGuard at hs'
  by_cases hc : canceled
  · rw [if_pos hc] at hs'
    rcases writeStatusThenDuration_status_slot st p0 prest
      EXECUTION_STATUS_CANCELLED e2 hwf with h | h
    · rw [h] at hs'; simp at hs'
    · rw [h] at hs'
      simp only [Option.some.injEq, ScalarValue.str.injEq] at hs'
      exact .inr (.inr hs'.symm)
  · rw [if_neg hc] at hs'
    rcases hri : inner st with ⟨st1, ri⟩
    rw [hri] at hs'
    have hwf1 : StoreWF st1 := by
      have := hinner_wf st hwf
      rw [hri] at this
      exact this
    have hslot1 : ScalarStore.getOk st1 (p0 :: (prest ++ ["status"])) = none := by
      have h := (hinner_slot st).trans hinit
      rw [hri] at h
      exact h
    match ri with
    | .ok u =>
        rcases writeDurationThenStatus_status_slot st1 p0 prest e3
          EXECUTION_STATUS_SUCCESS (.ok u) hwf1 hslot1 with h | h
        · rw [h] at hs'; simp at hs'
        · rw [h] at hs'
          simp only [Option.some.injEq, ScalarValue.str.injEq] at hs'
          exact .inl hs'.symm
    | .error e =>
        rcases writeDurationThenStatus_status_slot st1 p0 prest e3
          EXECUTION_STATUS_ERROR (.error e) hwf1 hslot1 with h | h
        · rw [h] at hs'; simp at hs'
        · rw [h] at hs'
          simp only [Option.some.injEq, ScalarValue.str.injEq] at hs'
          exact .inr (.inl hs'.symm)

/-- Claim C1, counterexample: with the cancellation flag set, the wrapper
writes the status string `cancelled`, which is none of `success`,
`skipped`, `error` — the source has a fourth status value
(`EXECUTION_STATUS_CANCELLED`). -/
theorem C1_cancelled_status_counterexample :
    ScalarStore.getOk
      (ExecutableWrapper.execute (fun _ s => .ok s) (fun s => (s, .ok ()))
        none true 0 0 0 ["ns", "cmd"] []).1 ["ns", "cmd", "status"] =
      some (.str "cancelled") ∧
    "cancelled" ∉ ["success", "skipped", "error"] :=
  ⟨rfl, by decide⟩

/-- Claim C1 (amended): for every command the `ExecutableWrapper` runs,
the `status` value it writes under the output prefix is one of exactly
`success`, `skipped`, `error`, `cancelled`.  Formally: starting from a
well-formed store with no value at the status slot, for an inner command
that neither touches that slot nor breaks store well-formedness, any
status string found under the output prefix after `execute` is one of
the four constants. -/
theorem C1_status_one_of_four
    (subst : ScalarMap → String → Except String String)
    (inner : ScalarMap → ScalarMap × Except String Unit)
    (when? : Option String) (canceled : Bool) (e1 e2 e3 : Nat)
    (p0 : String) (prest : List String) (st : ScalarMap)
    (hwf : StoreWF st)
    (hinit : ScalarStore.getOk st (p0 :: (prest ++ ["status"])) = none)
    (hinner_slot : ∀ s, ScalarStore.getOk (inner s).1 (p0 :: (prest ++ ["status"])) =
      ScalarStore.getOk s (p0 :: (prest ++ ["status"])))
    (hinner_wf : ∀ s, StoreWF s → StoreWF (inner s).1)
    (s' : String)
    (hs' : ScalarStore.getOk
      (ExecutableWrapper.execute subst inner when? canceled e1 e2 e3
        (p0 :: prest) st).1 (p0 :: (prest ++ ["status"])) = some (.str s')) :
    s' = EXECUTION_STATUS_SUCCESS ∨ s' = EXECUTION_STATUS_SKIPPED ∨
    s' = EXECUTION_STATUS_ERROR ∨ s' = EXECUTION_STATUS_CANCELLED := by
  match when? with
  | none =>
      have := afterGuard_status inner canceled e2 e3 p0 prest st hwf hinit
        hinner_slot hinner_wf s' hs'
      tauto
  | some condition =>
      rw [show ExecutableWrapper.execute subst inner (some condition) canceled
          e1 e2 e3 (p0 :: prest) st =
          (match subst st (whenTemplate condition) with
            | .error e => (st, .error e)
            | .ok rendered =>
                if !(is_truthy (parse_scalar rendered)) then
                  writeStatusThenDuration st (p0 :: prest)
                    EXECUTION_STATUS_SKIPPED e1
                else
                  ExecutableWrapper.executeAfterGuard inner canceled e2 e3
                    (p0 :: prest) st) from rfl] at hs'
      match hsub : subst st (whenTemplate condition) with
      | .error e =>
          rw [hsub] at hs'
          simp only at hs'
          rw [hinit] at hs'
          simp at hs'
      | .ok rendered =>
          rw [hsub] at hs'
          simp only at hs'
          by_cases ht : is_truthy (parse_scalar rendered)
          · rw [ht] at hs'
            simp only [Bool.not_true, Bool.false_eq_true, if_false] at hs'
            have := afterGuard_status inner canceled e2 e3 p0 prest st hwf hinit
              hinner_slot hinner_wf s' hs'
            tauto
          · rw [Bool.not_eq_true] at ht
            rw [ht] at hs'
            simp only [Bool.not_false, if_true] at hs'
            rcases writeStatusThenDuration_status_slot st p0 prest
              EXECUTION_STATUS_SKIPPED e1 hwf with h | h
            · rw [h] at hs'; simp at hs'
            · rw [h] at hs'
              simp only [Option.some.injEq, ScalarValue.str.injEq] at hs'
              exact .inr (.inl hs'.symm)

/-- Witness for the amended C1 theorem: a plain successful run writes
`success`, which the theorem places among the four status constants. -/
theorem C1_status_one_of_four_witness :
    "success" = EXECUTION_STATUS_SUCCESS ∨ "success" = EXECUTION_STATUS_SKIPPED ∨
    "success" = EXECUTION_STATUS_ERROR ∨ "success" = EXECUTION_STATUS_CANCELLED :=
  C1_status_one_of_four (fun _ s => .ok s) (fun s => (s, .ok ())) none false
    0 0 0 "ns" ["cmd"] [] (by simp [StoreWF]) rfl (fun _ => rfl) (fun _ h => h)
    "success" rfl

theorem writeStatusThenDuration_clean (st : ScalarMap) (p0 : String)
    (prest : List String) (sv : String) (ems : Nat)
    (hclean : spineClean ((mapGet st p0).getD (.obj [])) (prest ++ ["status"]) = true) :
    (writeStatusThenDuration st (p0 :: prest) sv ems).2 = .ok () ∧
    ScalarStore.getOk (writeStatusThenDuration st (p0 :: prest) sv ems).1
      (p0 :: (prest ++ ["status"])) = some (.str sv) ∧
    ScalarStore.getOk (writeStatusThenDuration st (p0 :: prest) sv ems).1
      (p0 :: (prest ++ ["duration_ms"])) = some (.num ems) := by
  simp only [writeStatusThenDuration]
  rcases h1 : InsertBatch.string st (p0 :: prest) "status" sv with ⟨st1, err1⟩
  have h1' : ScalarStore.insert st (p0 :: (prest ++ ["status"])) (.str sv) =
      (st1, err1) := h1
  have hok1 : err1 = none := by
    have := store_insert_ok_of_clean st p0 (prest ++ ["status"]) (.str sv) hclean
    rw [h1'] at this
    exact this
  subst hok1
  have hslot1 := store_insert_ok_sets st st1 p0 (prest ++ ["status"]) (.str sv)
    h1' (by simp)
  have hclean2 : spineClean ((mapGet st1 p0).getD (.obj []))
      (prest ++ ["duration_ms"]) = true :=
    store_clean_after_insert st st1 p0 prest (.str sv) "status" "duration_ms" h1'
  rcases h2 : InsertBatch.u64 st1 (p0 :: prest) "duration_ms" ems with ⟨st2, err2⟩
  have h2' : ScalarStore.insert st1 (p0 :: (prest ++ ["duration_ms"]))
      (.num ems) = (st2, err2) := h2
  have hok2 : err2 = none := by
    have := store_insert_ok_of_clean st1 p0 (prest ++ ["duration_ms"]) (.num ems)
      hclean2
    rw [h2'] at this
    exact this
  subst hok2
  refine ⟨rfl, ?_, ?_⟩
  · show ScalarStore.getOk st2 _ = _
    have hframe := store_insert_ok_frame st1 st2 p0 (prest ++ ["duration_ms"])
      (.num ems) h2' (p0 :: (prest ++ ["status"]))
      (append_last_ne_head (p0 :: prest) "duration_ms" "status" (by decide))
      (append_last_ne_head (p0 :: prest) "status" "duration_ms" (by decide))
    exact hframe.trans hslot1
  · show ScalarStore.getOk st2 _ = _
    exact store_insert_ok_sets st1 st2 p0 (prest ++ ["duration_ms"]) (.num ems)
      h2' (by simp)

theorem writeDurationThenStatus_clean (st : ScalarMap) (p0 : String)
    (prest : List String) (ems : Nat) (sv : String) (result : Except String Unit)
    (hclean : spineClean ((mapGet st p0).getD (.obj []))
      (prest ++ ["duration_ms"]) = true) :
    (writeDurationThenStatus st (p0 :: prest) ems sv result).2 = result ∧
    ScalarStore.getOk (writeDurationThenStatus st (p0 :: prest) ems sv result).1
      (p0 :: (prest ++ ["duration_ms"])) = some (.num ems) ∧
    ScalarStore.getOk (writeDurationThenStatus st (p0 :: prest) ems sv result).1
      (p0 :: (prest ++ ["status"])) = some (.str sv) := by
  simp only [writeDurationThenStatus]
  rcases h1 : InsertBatch.u64 st (p0 :: prest) "duration_ms" ems with ⟨st1, err1⟩
  have h1' : ScalarStore.insert st (p0 :: (prest ++ ["duration_ms"]))
      (.num ems) = (st1, err1) := h1
  have hok1 : err1 = none := by
    have := store_insert_ok_of_clean st p0 (prest ++ ["duration_ms"]) (.num ems)
      hclean
    rw [h1'] at this
    exact this
  subst hok1
  have hslot1 := store_insert_ok_sets st st1 p0 (prest ++ ["duration_ms"])
    (.num ems) h1' (by simp)
  have hclean2 : spineClean ((mapGet st1 p0).getD (.obj []))
      (prest ++ ["status"]) = true :=
    store_clean_after_insert st st1 p0 prest (.num ems) "duration_ms" "status" h1'
  rcases h2 : InsertBatch.string st1 (p0 :: prest) "status" sv with ⟨st2, err2⟩
  have h2' : ScalarStore.insert st1 (p0 :: (prest ++ ["status"]))
      (.str sv) = (st2, err2) := h2
  have hok2 : err2 = none := by
    have := store_insert_ok_of_clean st1 p0 (prest ++ ["status"]) (.str sv) hclean2
    rw [h2'] at this
    exact this
  subst hok2
  refine ⟨rfl, ?_, ?_⟩
  · show ScalarStore.getOk st2 _ = _
    have hframe := store_insert_ok_frame st1 st2 p0 (prest ++ ["status"])
      (.str sv) h2' (p0 :: (prest ++ ["duration_ms"]))
      (append_last_ne_head (p0 :: prest) "status" "duration_ms" (by decide))
      (append_last_ne_head (p0 :: prest) "duration_ms" "status" (by decide))
    exact hframe.trans hslot1
  · show ScalarStore.getOk st2 _ = _
    exact store_insert_ok_sets st1 st2 p0 (prest ++ ["status"]) (.str sv)
      h2' (by simp)

/-- Claim C2: in all three outcome paths — guard-skip, inner success,
inner error — `ExecutableWrapper::execute` writes both `duration_ms` and
`status` under the output prefix before returning; it returns `Ok(())`
on a skip and otherwise the inner command's result, so an inner error
still surfaces after status and duration are recorded.  The cleanliness
hypotheses say the output prefix is writable (no non-object on its
spine), as holds for the driver's fresh `[namespace, command(, index)]`
prefixes. -/
theorem C2_writes_duration_and_status
    (subst : ScalarMap → String → Except String String)
    (inner : ScalarMap → ScalarMap × Except String Unit)
    (canceled : Bool) (e1 e2 e3 : Nat) (p0 : String) (prest : List String)
    (st : ScalarMap)
    (hclean : spineClean ((mapGet st p0).getD (.obj []))
      (prest ++ ["status"]) = true)
    (hinner_clean : spineClean ((mapGet (inner st).1 p0).getD (.obj []))
      (prest ++ ["duration_ms"]) = true) :
    (∀ condition rendered, subst st (whenTemplate condition) = .ok rendered →
      is_truthy (parse_scalar rendered) = false →
      (ExecutableWrapper.execute subst inner (some condition) canceled e1 e2 e3
          (p0 :: prest) st).2 = .ok () ∧
      ScalarStore.getOk (ExecutableWrapper.execute subst inner (some condition)
          canceled e1 e2 e3 (p0 :: prest) st).1 (p0 :: (prest ++ ["status"])) =
        some (.str EXECUTION_STATUS_SKIPPED) ∧
      ScalarStore.getOk (ExecutableWrapper.execute subst inner (some condition)
          canceled e1 e2 e3 (p0 :: prest) st).1 (p0 :: (prest ++ ["duration_ms"])) =
        some (.num e1)) ∧
    (canceled = false → (inner st).2 = .ok () →
      (ExecutableWrapper.execute subst inner none canceled e1 e2 e3
          (p0 :: prest) st).2 = .ok () ∧
      ScalarStore.getOk (ExecutableWrapper.execute subst inner none canceled
          e1 e2 e3 (p0 :: prest) st).1 (p0 :: (prest ++ ["status"])) =
        some (.str EXECUTION_STATUS_SUCCESS) ∧
      ScalarStore.getOk (ExecutableWrapper.execute subst inner none canceled
          e1 e2 e3 (p0 :: prest) st).1 (p0 :: (prest ++ ["duration_ms"])) =
        some (.num e3)) ∧
    (∀ emsg, canceled = false → (inner st).2 = .error emsg →
      (ExecutableWrapper.execute subst inner none canceled e1 e2 e3
          (p0 :: prest) st).2 = .error emsg ∧
      ScalarStore.getOk (ExecutableWrapper.execute subst inner none canceled
          e1 e2 e3 (p0 :: prest) st).1 (p0 :: (prest ++ ["status"])) =
        some (.str EXECUTION_STATUS_ERROR) ∧
      ScalarStore.getOk (ExecutableWrapper.execute subst inner none canceled
          e1 e2 e3 (p0 :: prest) st).1 (p0 :: (prest ++ ["duration_ms"])) =
        some (.num e3)) := by
  refine ⟨?_, ?_, ?_⟩
  · intro condition rendered hsub ht
    have hred : ExecutableWrapper.execute subst inner (some condition) canceled
        e1 e2 e3 (p0 :: prest) st =
        writeStatusThenDuration st (p0 :: prest) EXECUTION_STATUS_SKIPPED e1 := by
      show (match subst st (whenTemplate condition) with
        | .error e => (st, Except.error e)
        | .ok rendered =>
            if !(is_truthy (parse_scalar rendered)) then
              writeStatusThenDuration st (p0 :: prest) EXECUTION_STATUS_SKIPPED e1
            else
              ExecutableWrapper.executeAfterGuard inner canceled e2 e3
                (p0 :: prest) st) = _
      rw [hsub]
      show (if (!is_truthy (parse_scalar rendered)) = true then
          writeStatusThenDuration st (p0 :: prest) EXECUTION_STATUS_SKIPPED e1
        else ExecutableWrapper.executeAfterGuard inner canceled e2 e3
          (p0 :: prest) st) = _
      rw [ht]
      simp
    rw [hred]
    have h := writeStatusThenDuration_clean st p0 prest EXECUTION_STATUS_SKIPPED
      e1 hclean
    exact ⟨h.1, h.2.1, h.2.2⟩
  · intro hcancel hok
    have hred : ExecutableWrapper.execute subst inner none canceled e1 e2 e3
        (p0 :: prest) st =
        writeDurationThenStatus (inner st).1 (p0 :: prest) e3
          EXECUTION_STATUS_SUCCESS (.ok ()) := by
      show ExecutableWrapper.executeAfterGuard inner canceled e2 e3
        (p0 :: prest) st = _
      unfold ExecutableWrapper.executeAfterGuard
      rw [if_neg (by simp [hcancel])]
      rcases hri : inner st with ⟨st1, ri⟩
      have hr : ri = .ok () := by rw [hri] at hok; exact hok
      subst hr
      rfl
    rw [hred]
    have h := writeDurationThenStatus_clean (inner st).1 p0 prest e3
      EXECUTION_STATUS_SUCCESS (.ok ()) hinner_clean
    exact ⟨h.1, h.2.2, h.2.1⟩
  · intro emsg hcancel herr
    have hred : ExecutableWrapper.execute subst inner none canceled e1 e2 e3
        (p0 :: prest) st =
        writeDurationThenStatus (inner st).1 (p0 :: prest) e3
          EXECUTION_STATUS_ERROR (.error emsg) := by
      show ExecutableWrapper.executeAfterGuard inner canceled e2 e3
        (p0 :: prest) st = _
      unfold ExecutableWrapper.executeAfterGuard
      rw [if_neg (by simp [hcancel])]
      rcases hri : inner st with ⟨st1, ri⟩
      have hr : ri = .error emsg := by rw [hri] at herr; exact herr
      subst hr
      rfl
    rw [hred]
    have h := writeDurationThenStatus_clean (inner st).1 p0 prest e3
      EXECUTION_STATUS_ERROR (.error emsg) hinner_clean
    exact ⟨h.1, h.2.2, h.2.1⟩

/-- Witness for C2: a concrete guard-skip returns `Ok` having written
both values, a concrete successful run returns `Ok`, and a concrete
failing run surfaces the inner error with `status = error` written. -/
theorem C2_writes_duration_and_status_witness :
    (ExecutableWrapper.execute (fun _ _ => .ok "false") (fun s => (s, .ok ()))
        (some "flag") false 7 0 0 ("ns" :: ["cmd"]) []).2 = .ok () ∧
    (ExecutableWrapper.execute (fun _ s => .ok s) (fun s => (s, .ok ()))
        none false 0 0 9 ("ns" :: ["cmd"]) []).2 = .ok () ∧
    (ExecutableWrapper.execute (fun _ s => .ok s) (fun s => (s, .error "boom"))
        none false 0 0 9 ("ns" :: ["cmd"]) []).2 = .error "boom" ∧
    ScalarStore.getOk (ExecutableWrapper.execute (fun _ s => .ok s)
        (fun s => (s, .error "boom")) none false 0 0 9 ("ns" :: ["cmd"]) []).1
      ("ns" :: (["cmd"] ++ ["status"])) = some (.str EXECUTION_STATUS_ERROR) := by
  refine ⟨?_, ?_, ?_, ?_⟩
  · exact ((C2_writes_duration_and_status (fun _ _ => .ok "false")
      (fun s => (s, .ok ())) false 7 0 0 "ns" ["cmd"] [] rfl rfl).1
      "flag" "false" rfl rfl).1
  · exact ((C2_writes_duration_and_status (fun _ s => .ok s)
      (fun s => (s, .ok ())) false 0 0 9 "ns" ["cmd"] [] rfl rfl).2.1 rfl rfl).1
  · exact ((C2_writes_duration_and_status (fun _ s => .ok s)
      (fun s => (s, .error "boom")) false 0 0 9 "ns" ["cmd"] [] rfl rfl).2.2
      "boom" rfl rfl).1
  · exact ((C2_writes_duration_and_status (fun _ s => .ok s)
      (fun s => (s, .error "boom")) false 0 0 9 "ns" ["cmd"] [] rfl rfl).2.2
      "boom" rfl rfl).2.1

/-! ### The iterative-namespace loop (`src/pipeline/ready.rs`) -/

/-- One iteration of the `ExecutionMode::Iterative` arm of
`Pipeline::<Ready>::execute` (`src/pipeline/ready.rs`, lines 66–92):
`if let Some(var_name) = iter_var` raw-insert the item, `if let
Some(index_name) = index_var` raw-insert the index, run the namespace's
commands (abstracted as `execCmds`, which also receives the iteration
index for the output prefix), then — only when the respective variable
is `Some` — remove it from the store.  A command error propagates via
`?` before the removals. -/
def runIteration (execCmds : ScalarMap → Nat → ScalarMap × Except String Unit)
    (iter_var index_var : Option String) (index : Nat) (item : ScalarValue)
    (st : ScalarMap) : ScalarMap × Except String Unit :=
  let st1 := match iter_var with
    | some var_name => ScalarStore.insert_raw st var_name item
    | none => st
  let st2 := match index_var with
    | some index_name => ScalarStore.insert_raw st1 index_name (.num index)
    | none => st1
  match execCmds st2 index with
  | (st3, .error e) => (st3, .error e)
  | (st3, .ok _) =>
      let st4 := match iter_var with
        | some var_name => (ScalarStore.remove st3 [var_name]).1
        | none => st3
      let st5 := match index_var with
        | some index_name => (ScalarStore.remove st4 [index_name]).1
        | none => st4
      (st5, .ok ())

/-- The whole iteration loop: `for (index, item) in iter_items.iter().enumerate()`. -/
def runIterativeFrom (execCmds : ScalarMap → Nat → ScalarMap × Except String Unit)
    (iter_var index_var : Option String) :
    Nat → List ScalarValue → ScalarMap → ScalarMap × Except String Unit
  | _, [], st => (st, .ok ())
  | i, item :: rest, st =>
      match runIteration execCmds iter_var index_var i item st with
      | (st', .ok _) => runIterativeFrom execCmds iter_var index_var (i + 1) rest st'
      | (st', .error e) => (st', .error e)

/-- Claim C3 (code-bug evidence): when `iter_var` and `index_var` are
`None`, the engine inserts *nothing* before running the commands and
removes nothing afterwards — the iteration body degenerates to the bare
command execution, with no raw insert of the documented defaults `item`
and `index` (the `DEFAULT_ITER_VAR` / `DEFAULT_INDEX_VAR` constants of
`src/namespace/mod.rs` are never consulted by the driver, contradicting
the field comments "If None, defaults to DEFAULT_ITER_VAR / _INDEX_VAR"
and the spec). -/
theorem C3_unset_iteration_vars_insert_nothing
    (execCmds : ScalarMap → Nat → ScalarMap × Except String Unit)
    (index : Nat) (item : ScalarValue) (st : ScalarMap) :
    runIteration execCmds none none index item st = execCmds st index := by
  show (match execCmds st index with
    | (st3, .error e) => (st3, Except.error e)
    | (st3, .ok _) => (st3, Except.ok ())) = execCmds st index
  rcases h : execCmds st index with ⟨st', r⟩
  match r with
  | .ok u => rfl
  | .error e => rfl

/-! ### Spec types (`src/spec/mod.rs`, `src/spec/attribute.rs`) -/

/-- `ScalarType` (`src/values/scalar.rs`). -/
inductive ScalarType where
  | Null | Bool | Number | String | Array | Object
deriving DecidableEq, Repr

/-- `ReferenceKind` (`src/spec/mod.rs`). -/
inductive ReferenceKind where
  | StaticTeraTemplate
  | RuntimeTeraTemplate
  | StorePath
  | Unsupported
deriving DecidableEq, Repr

mutual
/-- `TypeDef` (`src/spec/mod.rs`). -/
inductive TypeDef where
  | Scalar (ty : ScalarType)
  | Tabular
  | ArrayOf (inner : TypeDef)
  | ObjectOf (fields : List FieldSpec)
/-- `FieldSpec` (`src/spec/mod.rs`): name, type, required flag, hint and
reference kind. -/
inductive FieldSpec where
  | mk (name : String) (ty : TypeDef) (required : Bool) (hint : Option String)
      (reference_kind : ReferenceKind)
end

def FieldSpec.name : FieldSpec → String
  | .mk n _ _ _ _ => n

def FieldSpec.ty : FieldSpec → TypeDef
  | .mk _ t _ _ _ => t

def FieldSpec.reference_kind : FieldSpec → ReferenceKind
  | .mk _ _ _ _ rk => rk

/-- `AttributeSpec` (`src/spec/attribute.rs`). -/
structure AttributeSpec where
  name : String
  ty : TypeDef
  required : Bool
  hint : Option String
  default_value : Option ScalarValue
  reference_kind : ReferenceKind

/-! ### Dependency extraction (`src/dependencies/helpers.rs`,
`src/dependencies/parser.rs`).  The tera grammar itself is an external
collaborator; `identsOf` abstracts the pest parse of a template into the
list of its `dotted_square_bracket_ident` tokens, `none` standing for a
parse error. -/

/-- `parse_template_dependencies` (`src/dependencies/parser.rs`): on a
successful parse, insert `StorePath::from_dotted` of every dotted
identifier into the dependency set; a parse error leaves the set
untouched (the `Result` is dropped at the extraction call sites). -/
def parse_template_dependencies (identsOf : String → Option (List String))
    (template : String) (deps : Finset (List String)) : Finset (List String) :=
  match identsOf template with
  | none => deps
  | some idents =>
      idents.foldl (fun acc ident => insert (StorePath.from_dotted ident) acc) deps

/-- `extract_from_scalar` (`src/dependencies/helpers.rs`). -/
def extract_from_scalar (identsOf : String → Option (List String))
    (value : ScalarValue) (reference_kind : ReferenceKind)
    (deps : Finset (List String)) : Finset (List String) :=
  match reference_kind with
  | .StaticTeraTemplate =>
      match value with
      | .str s => parse_template_dependencies identsOf s deps
      | _ => deps
  | .RuntimeTeraTemplate =>
      match value with
      | .str s =>
          parse_template_dependencies identsOf ("\x7b\x7b " ++ s ++ " \x7d\x7d") deps
      | _ => deps
  | .StorePath =>
      match value with
      | .str s => insert (StorePath.from_dotted s) deps
      | _ => deps
  | .Unsupported => deps

mutual
/-- `extract_from_value` (`src/dependencies/helpers.rs`): walk the value
in lock-step with the `TypeDef`; arrays keep the parent's reference
kind, object fields use their own. -/
def extract_from_value (identsOf : String → Option (List String))
    (value : ScalarValue) (ty : TypeDef) (reference_kind : ReferenceKind)
    (deps : Finset (List String)) : Finset (List String) :=
  match ty with
  | .Scalar _ | .Tabular => extract_from_scalar identsOf value reference_kind deps
  | .ArrayOf inner =>
      match value with
      | .arr items => extract_from_items identsOf items inner reference_kind deps
      | _ => deps
  | .ObjectOf fields =>
      match value with
      | .obj m => extract_from_fields identsOf m fields deps
      | _ => deps

/-- The per-element loop of the `ArrayOf` arm. -/
def extract_from_items (identsOf : String → Option (List String))
    (items : List ScalarValue) (inner : TypeDef)
    (reference_kind : ReferenceKind) (deps : Finset (List String)) :
    Finset (List String) :=
  match items with
  | [] => deps
  | item :: rest =>
      extract_from_items identsOf rest inner reference_kind
        (extract_from_value identsOf item inner reference_kind deps)

/-- The per-field loop of the `ObjectOf` arm. -/
def extract_from_fields (identsOf : String → Option (List String))
    (m : ScalarMap) (fields : List FieldSpec) (deps : Finset (List String)) :
    Finset (List String) :=
  match fields with
  | [] => deps
  | .mk fname fty _ _ frk :: rest =>
      match mapGet m fname with
      | some field_value =>
          extract_from_fields identsOf m rest
            (extract_from_value identsOf field_value fty frk deps)
      | none => extract_from_fields identsOf m rest deps
end

/-- The body of the `for spec in specs` loop of
`extract_dependencies_from_spec`. -/
def extract_spec_step (identsOf : String → Option (List String))
    (attrs : ScalarMap) (deps : Finset (List String)) (spec : AttributeSpec) :
    Finset (List String) :=
  match mapGet attrs spec.name with
  | some value =>
      extract_from_value identsOf value spec.ty spec.reference_kind deps
  | none => deps

/-- `extract_dependencies_from_spec` (`src/dependencies/helpers.rs`):
the union of per-attribute contributions, threaded through an
accumulator starting empty. -/
def extract_dependencies_from_spec (identsOf : String → Option (List String))
    (attrs : ScalarMap) (specs : List AttributeSpec) : Finset (List String) :=
  specs.foldl (extract_spec_step identsOf attrs) ∅

/-! ### Monotonicity of the extraction accumulator -/

theorem foldl_insert_mono (L : List String) :
    ∀ deps : Finset (List String),
    deps ⊆ L.foldl (fun acc ident => insert (StorePath.from_dotted ident) acc) deps := by
  induction L with
  | nil => intro deps; exact Finset.Subset.refl _
  | cons x xs ih =>
      intro deps
      exact (Finset.subset_insert _ _).trans (ih _)

theorem mem_foldl_insert (L : List String) (ident : String) (h : ident ∈ L) :
    ∀ deps : Finset (List String),
    StorePath.from_dotted ident ∈
      L.foldl (fun acc i => insert (StorePath.from_dotted i) acc) deps := by
  induction L with
  | nil => cases h
  | cons x xs ih =>
      intro deps
      rcases List.mem_cons.mp h with rfl | hx
      · exact foldl_insert_mono xs _ (Finset.mem_insert_self _ _)
      · exact ih hx _

theorem parse_template_dependencies_mono (identsOf : String → Option (List String))
    (t : String) (deps : Finset (List String)) :
    deps ⊆ parse_template_dependencies identsOf t deps := by
  unfold parse_template_dependencies
  match identsOf t with
  | none => exact Finset.Subset.refl _
  | some idents => exact foldl_insert_mono idents deps

theorem extract_from_scalar_mono (identsOf : String → Option (List String))
    (v : ScalarValue) (rk : ReferenceKind) (deps : Finset (List String)) :
    deps ⊆ extract_from_scalar identsOf v rk deps := by
  unfold extract_from_scalar
  match rk, v with
  | .StaticTeraTemplate, .str s => exact parse_template_dependencies_mono _ _ _
  | .StaticTeraTemplate, .null | .StaticTeraTemplate, .bool _
  | .StaticTeraTemplate, .num _ | .StaticTeraTemplate, .arr _
  | .StaticTeraTemplate, .obj _ => exact Finset.Subset.refl _
  | .RuntimeTeraTemplate, .str s => exact parse_template_dependencies_mono _ _ _
  | .RuntimeTeraTemplate, .null | .RuntimeTeraTemplate, .bool _
  | .RuntimeTeraTemplate, .num _ | .RuntimeTeraTemplate, .arr _
  | .RuntimeTeraTemplate, .obj _ => exact Finset.Subset.refl _
  | .StorePath, .str s => exact Finset.subset_insert _ _
  | .StorePath, .null | .StorePath, .bool _ | .StorePath, .num _
  | .StorePath, .arr _ | .StorePath, .obj _ => exact Finset.Subset.refl _
  | .Unsupported, _ => exact Finset.Subset.refl _

mutual
theorem extract_from_value_mono (identsOf : String → Option (List String))
    (v : ScalarValue) (ty : TypeDef) (rk : ReferenceKind)
    (deps : Finset (List String)) :
    deps ⊆ extract_from_value identsOf v ty rk deps := by
  match ty with
  | .Scalar t =>
      unfold extract_from_value
      exact extract_from_scalar_mono identsOf v rk deps
  | .Tabular =>
      unfold extract_from_value
      exact extract_from_scalar_mono identsOf v rk deps
  | .ArrayOf inner =>
      unfold extract_from_value
      match v with
      | .arr items => exact extract_from_items_mono identsOf items inner rk deps
      | .null | .bool _ | .num _ | .str _ | .obj _ => exact Finset.Subset.refl _
  | .ObjectOf fields =>
      unfold extract_from_value
      match v with
      | .obj m => exact extract_from_fields_mono identsOf m fields deps
      | .null | .bool _ | .num _ | .str _ | .arr _ => exact Finset.Subset.refl _

theorem extract_from_items_mono (identsOf : String → Option (List String))
    (items : List ScalarValue) (inner : TypeDef) (rk : ReferenceKind)
    (deps : Finset (List String)) :
    deps ⊆ extract_from_items identsOf items inner rk deps := by
  match items with
  | [] => unfold extract_from_items; exact Finset.Subset.refl _
  | item :: rest =>
      unfold extract_from_items
      exact (extract_from_value_mono identsOf item inner rk deps).trans
        (extract_from_items_mono identsOf rest inner rk _)

theorem extract_from_fields_mono (identsOf : String → Option (List String))
    (m : ScalarMap) (fields : List FieldSpec) (deps : Finset (List String)) :
    deps ⊆ extract_from_fields identsOf m fields deps := by
  match fields with
  | [] => unfold extract_from_fields; exact Finset.Subset.refl _
  | .mk fname fty freq fhint frk :: rest =>
      unfold extract_from_fields
      match mapGet m fname with
      | some fv =>
          exact (extract_from_value_mono identsOf fv fty frk deps).trans
            (extract_from_fields_mono identsOf m rest _)
      | none => exact extract_from_fields_mono identsOf m rest deps
end

theorem extract_spec_step_mono (identsOf : String → Option (List String))
    (attrs : ScalarMap) (deps : Finset (List String)) (spec : AttributeSpec) :
    deps ⊆ extract_spec_step identsOf attrs deps spec := by
  unfold extract_spec_step
  match mapGet attrs spec.name with
  | some v => exact extract_from_value_mono identsOf v spec.ty spec.reference_kind deps
  | none => exact Finset.Subset.refl _

theorem extract_spec_fold_mono (identsOf : String → Option (List String))
    (attrs : ScalarMap) (specs : List AttributeSpec) :
    ∀ deps, deps ⊆ specs.foldl (extract_spec_step identsOf attrs) deps := by
  induction specs with
  | nil => intro deps; exact Finset.Subset.refl _
  | cons spec rest ih =>
      intro deps
      exact (extract_spec_step_mono identsOf attrs deps spec).trans (ih _)

theorem mem_extract_of_contrib (identsOf : String → Option (List String))
    (attrs : ScalarMap) (specs : List AttributeSpec) (spec : AttributeSpec)
    (x : List String) (hmem : spec ∈ specs)
    (hx : ∀ d, x ∈ extract_spec_step identsOf attrs d spec) :
    ∀ deps, x ∈ specs.foldl (extract_spec_step identsOf attrs) deps := by
  induction specs with
  | nil => cases hmem
  | cons hd rest ih =>
      intro deps
      rcases List.mem_cons.mp hmem with rfl | htl
      · exact extract_spec_fold_mono identsOf attrs rest _ (hx deps)
      · exact ih htl _

/-- Claim C7: for every attributes map and schema, dependency extraction
includes `from_dotted("x.y.z")` for every template variable `x.y.z` of a
string attribute of `StaticTeraTemplate` or `RuntimeTeraTemplate` kind
(the latter parsed after wrapping in template delimiters), and for every
string attribute of `StorePath` kind whose value is `x.y.z`; string
attributes of `Unsupported` kind contribute no dependencies.  `identsOf`
is the external tera grammar parser returning a template's dotted
identifiers. -/
theorem C7_dependency_extraction_completeness
    (identsOf : String → Option (List String)) (attrs : ScalarMap)
    (specs : List AttributeSpec) (spec : AttributeSpec) (s : String)
    (hmem : spec ∈ specs) (hval : mapGet attrs spec.name = some (.str s))
    (hleaf : (∃ t, spec.ty = TypeDef.Scalar t) ∨ spec.ty = TypeDef.Tabular) :
    (∀ L ident, spec.reference_kind = .StaticTeraTemplate →
      identsOf s = some L → ident ∈ L →
      StorePath.from_dotted ident ∈
        extract_dependencies_from_spec identsOf attrs specs) ∧
    (∀ L ident, spec.reference_kind = .RuntimeTeraTemplate →
      identsOf ("\x7b\x7b " ++ s ++ " \x7d\x7d") = some L → ident ∈ L →
      StorePath.from_dotted ident ∈
        extract_dependencies_from_spec identsOf attrs specs) ∧
    (spec.reference_kind = .StorePath →
      StorePath.from_dotted s ∈
        extract_dependencies_from_spec identsOf attrs specs) ∧
    (∀ (v : ScalarValue) (ty : TypeDef), ((∃ t, ty = TypeDef.Scalar t) ∨ ty = .Tabular) →
      ∀ d, extract_from_value identsOf v ty .Unsupported d = d) := by
  have hstep : ∀ d, extract_spec_step identsOf attrs d spec =
      extract_from_scalar identsOf (.str s) spec.reference_kind d := by
    intro d
    unfold extract_spec_step
    rw [hval]
    rcases hleaf with ⟨t, hty⟩ | hty
    · rw [hty]
      show extract_from_value identsOf (.str s) (TypeDef.Scalar t)
        spec.reference_kind d = _
      simp only [extract_from_value]
    · rw [hty]
      show extract_from_value identsOf (.str s) TypeDef.Tabular
        spec.reference_kind d = _
      simp only [extract_from_value]
  refine ⟨?_, ?_, ?_, ?_⟩
  · intro L ident hrk hparse hid
    refine mem_extract_of_contrib identsOf attrs specs spec _ hmem ?_ ∅
    intro d
    rw [hstep d, hrk]
    show StorePath.from_dotted ident ∈ parse_template_dependencies identsOf s d
    unfold parse_template_dependencies
    rw [hparse]
    exact mem_foldl_insert L ident hid d
  · intro L ident hrk hparse hid
    refine mem_extract_of_contrib identsOf attrs specs spec _ hmem ?_ ∅
    intro d
    rw [hstep d, hrk]
    show StorePath.from_dotted ident ∈
      parse_template_dependencies identsOf ("\x7b\x7b " ++ s ++ " \x7d\x7d") d
    unfold parse_template_dependencies
    rw [hparse]
    exact mem_foldl_insert L ident hid d
  · intro hrk
    refine mem_extract_of_contrib identsOf attrs specs spec _ hmem ?_ ∅
    intro d
    rw [hstep d, hrk]
    exact Finset.mem_insert_self _ _
  · intro v ty hty d
    rcases hty with ⟨t, rfl⟩ | rfl
    · unfold extract_from_value
      unfold extract_from_scalar
      rfl
    · unfold extract_from_value
      unfold extract_from_scalar
      rfl

/-- Witness for C7 at a concrete schema: a `StaticTeraTemplate` string
attribute whose parse yields `inputs.table` contributes that path. -/
theorem C7_dependency_extraction_completeness_witness :
    StorePath.from_dotted "inputs.table" ∈
      extract_dependencies_from_spec (fun _ => some ["inputs.table"])
        [("query", .str "SELECT")]
        [⟨"query", TypeDef.Scalar .String, true, none, none,
          .StaticTeraTemplate⟩] :=
  (C7_dependency_extraction_completeness (fun _ => some ["inputs.table"])
    [("query", .str "SELECT")]
    [⟨"query", TypeDef.Scalar .String, true, none, none, .StaticTeraTemplate⟩]
    ⟨"query", TypeDef.Scalar .String, true, none, none, .StaticTeraTemplate⟩
    "SELECT" (by simp) rfl (.inl ⟨.String, rfl⟩)).1
    ["inputs.table"] "inputs.table" rfl rfl (by simp)

/-! ### The schema builder (`src/spec/builder.rs`, `src/spec/mod.rs`) -/

/-- `LiteralFieldRef` (`src/spec/mod.rs`): the opaque token carrying a
literal field's name (its construction discipline is a Rust type-state
property; only the carried name matters for `build`). -/
structure LiteralFieldRef where
  name : String

/-- `ResultKind` (`src/spec/result.rs`). -/
inductive ResultKind where
  | Data | Meta
deriving DecidableEq, Repr

/-- `ResultSpec` as consumed by `CommandSpecBuilder` (`src/spec/builder.rs`). -/
inductive ResultSpec where
  | Field (name : String) (ty : TypeDef) (hint : Option String) (kind : ResultKind)
  | DerivedFromSingleAttribute (attrName : String) (name_field : LiteralFieldRef)
      (ty : Option TypeDef) (kind : ResultKind)

/-- `extract_object_fields` (`src/spec/mod.rs`): the `FieldSpec` list of
an `ArrayOf(ObjectOf)` type, `none` otherwise. -/
def extract_object_fields : TypeDef → Option (List FieldSpec)
  | .ArrayOf inner =>
      match inner with
      | .ObjectOf fields => some fields
      | _ => none
  | _ => none

/-- The `[^a-zA-Z0-9_]` forbidden-character test of the default
`NamePolicy` (`src/spec/mod.rs`): true when some character is outside
the ASCII alphanumeric-or-underscore class. -/
def nameForbidden (s : String) : Bool :=
  s.toList.any (fun c => !(c.isAlphanum || c = '_'))

def RESERVED_NAMES : List String := ["item", "index"]

/-- `NamePolicy::validate` for the default policy: reserved names first,
then the forbidden-character pattern.  The Rust panics are modelled as
`Except.error`. -/
def NamePolicy.validate (name : String) (context : String) : Except String Unit :=
  if RESERVED_NAMES.contains name then
    .error ("NamePolicy violation: " ++ context ++ " name '" ++ name ++ "' is reserved")
  else if nameForbidden name then
    .error ("NamePolicy violation: " ++ context ++ " name '" ++ name ++
      "' contains forbidden characters")
  else
    .ok ()

/-- `CommandSpecBuilder` (`src/spec/builder.rs`). -/
structure CommandSpecBuilder where
  attributes : List AttributeSpec
  results : List ResultSpec

/-- The first loop of `CommandSpecBuilder::build`: check every
`DerivedFromSingleAttribute` against the attribute list. -/
def checkDerived (attributes : List AttributeSpec) :
    List ResultSpec → Except String Unit
  | [] => .ok ()
  | .Field _ _ _ _ :: rest => checkDerived attributes rest
  | .DerivedFromSingleAttribute attrName name_field _ _ :: rest =>
      match attributes.find? (fun a => a.name = attrName) with
      | none => .error ("Derived result references unknown attrName '" ++ attrName ++ "'")
      | some attr =>
          match extract_object_fields attr.ty with
          | none => .error ("Derived result attrName '" ++ attrName ++
              "' must be ArrayOf(ObjectOf)")
          | some fields =>
              if fields.any (fun f => f.name = name_field.name) then
                checkDerived attributes rest
              else
                .error ("Derived result name_field '" ++ name_field.name ++
                  "' not found in attrName '" ++ attrName ++ "' fields")

/-- The second loop of `build`: name policy over the attributes. -/
def checkAttrNames : List AttributeSpec → Except String Unit
  | [] => .ok ()
  | a :: rest => do
      NamePolicy.validate a.name "attrName"
      checkAttrNames rest

/-- The third loop of `build`: name policy over the fixed results
(derived result names come from runtime data and are skipped). -/
def checkResultNames : List ResultSpec → Except String Unit
  | [] => .ok ()
  | .Field name _ _ _ :: rest => do
      NamePolicy.validate name "result"
      checkResultNames rest
  | .DerivedFromSingleAttribute _ _ _ _ :: rest => checkResultNames rest

/-- `CommandSpecBuilder::build` (`src/spec/builder.rs`): derived-result
checks, then the name policy over attributes and fixed results; on
success the `(attributes, results)` pair. -/
def CommandSpecBuilder.build (b : CommandSpecBuilder) :
    Except String (List AttributeSpec × List ResultSpec) := do
  checkDerived b.attributes b.results
  checkAttrNames b.attributes
  checkResultNames b.results
  return (b.attributes, b.results)

/-- A `DerivedFromSingleAttribute` passes `build`'s checks: its
attribute exists, is `ArrayOf(ObjectOf)`, and declares the name field. -/
def derivedOk (attributes : List AttributeSpec) : ResultSpec → Bool
  | .Field _ _ _ _ => true
  | .DerivedFromSingleAttribute attrName name_field _ _ =>
      match attributes.find? (fun a => a.name = attrName) with
      | none => false
      | some attr =>
          match extract_object_fields attr.ty with
          | none => false
          | some fields => fields.any (fun f => f.name = name_field.name)

/-- A name passes the default policy. -/
def policyOk (name : String) : Bool :=
  !(RESERVED_NAMES.contains name) && !(nameForbidden name)

theorem derivedOk_derived_eq (attributes : List AttributeSpec)
    (attrName : String) (name_field : LiteralFieldRef) (ty : Option TypeDef)
    (kind : ResultKind) :
    derivedOk attributes
      (.DerivedFromSingleAttribute attrName name_field ty kind) =
      match attributes.find? (fun a => a.name = attrName) with
      | none => false
      | some attr =>
          match extract_object_fields attr.ty with
          | none => false
          | some fields => fields.any (fun f => f.name = name_field.name) := rfl

theorem NamePolicy.validate_ok_of_policyOk (name context : String)
    (h : policyOk name = true) : NamePolicy.validate name context = .ok () := by
  unfold NamePolicy.validate
  unfold policyOk at h
  rw [Bool.and_eq_true] at h
  obtain ⟨h1, h2⟩ := h
  rw [Bool.not_eq_true'] at h1 h2
  have h1' : name ∉ RESERVED_NAMES := by simpa using h1
  simp [h1', h2]

theorem checkDerived_ok (attributes : List AttributeSpec) :
    ∀ results : List ResultSpec,
    (∀ r ∈ results, derivedOk attributes r = true) →
    checkDerived attributes results = .ok ()
  | [], _ => rfl
  | .Field n t h k :: rest, hall => by
      unfold checkDerived
      exact checkDerived_ok attributes rest fun r hr => hall r (List.mem_cons_of_mem _ hr)
  | .DerivedFromSingleAttribute attrName name_field ty kind :: rest, hall => by
      have hhd := hall _ (List.mem_cons_self _ _)
      rw [derivedOk_derived_eq] at hhd
      unfold checkDerived
      split
      next heq => simp [heq] at hhd
      next attr heq =>
        split
        next heq2 => simp [heq, heq2] at hhd
        next fields heq2 =>
          simp only [heq, heq2] at hhd
          rw [if_pos hhd]
          exact checkDerived_ok attributes rest
            fun r hr => hall r (List.mem_cons_of_mem _ hr)

theorem checkDerived_err (attributes : List AttributeSpec) :
    ∀ results : List ResultSpec, ∀ r ∈ results,
    derivedOk attributes r = false →
    ∃ e, checkDerived attributes results = .error e
  | [], r, hr, _ => absurd hr (List.not_mem_nil r)
  | .Field n t h k :: rest, r, hr, hbad => by
      rcases List.mem_cons.mp hr with rfl | htl
      · simp [derivedOk] at hbad
      · unfold checkDerived
        exact checkDerived_err attributes rest r htl hbad
  | .DerivedFromSingleAttribute attrName name_field ty kind :: rest, r, hr, hbad => by
      unfold checkDerived
      split
      next heq => exact ⟨_, rfl⟩
      next attr heq =>
        split
        next heq2 => exact ⟨_, rfl⟩
        next fields heq2 =>
          split
          next hany =>
            rcases List.mem_cons.mp hr with rfl | htl
            · rw [derivedOk_derived_eq] at hbad
              simp [heq, heq2, hany] at hbad
            · exact checkDerived_err attributes rest r htl hbad
          next hany => exact ⟨_, rfl⟩

theorem checkAttrNames_ok : ∀ attributes : List AttributeSpec,
    (∀ a ∈ attributes, policyOk a.name = true) →
    checkAttrNames attributes = .ok ()
  | [], _ => rfl
  | a :: rest, hall => by
      unfold checkAttrNames
      rw [NamePolicy.validate_ok_of_policyOk a.name "attrName"
        (hall a (List.mem_cons_self _ _))]
      show checkAttrNames rest = .ok ()
      exact checkAttrNames_ok rest fun x hx => hall x (List.mem_cons_of_mem _ hx)

theorem checkResultNames_ok : ∀ results : List ResultSpec,
    (∀ name ty hint kind, ResultSpec.Field name ty hint kind ∈ results →
      policyOk name = true) →
    checkResultNames results = .ok ()
  | [], _ => rfl
  | .Field name ty hint kind :: rest, hall => by
      unfold checkResultNames
      rw [NamePolicy.validate_ok_of_policyOk name "result"
        (hall name ty hint kind (List.mem_cons_self _ _))]
      show checkResultNames rest = .ok ()
      exact checkResultNames_ok rest
        fun n t h k hm => hall n t h k (List.mem_cons_of_mem _ hm)
  | .DerivedFromSingleAttribute a nf t k :: rest, hall => by
      unfold checkResultNames
      exact checkResultNames_ok rest
        fun n t h k hm => hall n t h k (List.mem_cons_of_mem _ hm)

/-- Claim C9: `CommandSpecBuilder::build` aborts whenever some
`DerivedFromSingleAttribute` references a missing attribute, an
attribute that is not `ArrayOf(ObjectOf)`, or a `name_field` absent from
the declared object fields; with none of these violations and no
name-policy violation, it returns the `(attributes, results)` pair. -/
theorem C9_builder_checks_derived_results (b : CommandSpecBuilder) :
    (∀ r ∈ b.results, derivedOk b.attributes r = false →
      ∃ e, b.build = .error e) ∧
    ((∀ r ∈ b.results, derivedOk b.attributes r = true) →
     (∀ a ∈ b.attributes, policyOk a.name = true) →
     (∀ name ty hint kind, ResultSpec.Field name ty hint kind ∈ b.results →
       policyOk name = true) →
     b.build = .ok (b.attributes, b.results)) := by
  constructor
  · intro r hr hbad
    rcases checkDerived_err b.attributes b.results r hr hbad with ⟨e, he⟩
    refine ⟨e, ?_⟩
    unfold CommandSpecBuilder.build
    rw [he]
    rfl
  · intro hder hattr hres
    unfold CommandSpecBuilder.build
    rw [checkDerived_ok b.attributes b.results hder,
      checkAttrNames_ok b.attributes hattr, checkResultNames_ok b.results hres]
    rfl

/-- Witness for C9: a well-formed derived-result schema builds to the
pair, and one referencing a missing attrName aborts. -/
theorem C9_builder_checks_derived_results_witness :
    (CommandSpecBuilder.build
      ⟨[⟨"aggregations",
          TypeDef.ArrayOf (TypeDef.ObjectOf
            [FieldSpec.mk "name" (TypeDef.Scalar .String) true none .Unsupported]),
          true, none, none, .Unsupported⟩],
        [ResultSpec.DerivedFromSingleAttribute "aggregations" ⟨"name"⟩ none .Data]⟩ =
      .ok ([⟨"aggregations",
          TypeDef.ArrayOf (TypeDef.ObjectOf
            [FieldSpec.mk "name" (TypeDef.Scalar .String) true none .Unsupported]),
          true, none, none, .Unsupported⟩],
        [ResultSpec.DerivedFromSingleAttribute "aggregations" ⟨"name"⟩ none .Data])) ∧
    (∃ e, CommandSpecBuilder.build
      ⟨[], [ResultSpec.DerivedFromSingleAttribute "missing" ⟨"name"⟩ none .Data]⟩ =
      .error e) := by
  constructor
  · refine (C9_builder_checks_derived_results _).2 ?_ ?_ ?_
    · intro r hr
      rcases List.mem_cons.mp hr with rfl | h
      · rfl
      · cases h
    · intro a ha
      rcases List.mem_cons.mp ha with rfl | h
      · rfl
      · cases h
    · intro name ty hint kind hm
      rcases List.mem_cons.mp hm with h | h
      · cases h
      · cases h
  · refine (C9_builder_checks_derived_results _).1
      (ResultSpec.DerivedFromSingleAttribute "missing" ⟨"name"⟩ none .Data)
      (List.mem_cons_self _ _) rfl

/-! ### Kahn's algorithm (`topological_sort_with_priority`,
`src/pipeline/order.rs`).  The `BinaryHeap<(u32, Reverse<usize>)>` is
modelled as a list whose pop removes the element with the greatest
priority, ties broken by the smallest index; `in_degree` is a function
updated pointwise. -/

/-- `(prio a, Reverse a) > (prio b, Reverse b)` — the heap's ordering. -/
def heapBetter (prio : Nat → Nat) (a b : Nat) : Bool :=
  prio b < prio a || (prio a == prio b && a < b)

/-- `BinaryHeap::pop`: remove the greatest element. -/
def popBest (prio : Nat → Nat) : List Nat → Option (Nat × List Nat)
  | [] => none
  | x :: xs =>
      match popBest prio xs with
      | none => some (x, [])
      | some (y, ys) =>
          if heapBetter prio x y then some (x, xs) else some (y, x :: ys)

/-- The mutable state of the Kahn loop. -/
@[ext] structure KState where
  inDeg : Nat → Nat
  heap : List Nat
  result : List Nat

/-- The `for (dependent, deps) in graph.iter()` decrement loop run for
the popped node: every dependent whose prerequisite set contains the
popped node has its in-degree decremented, and is pushed when it reaches
zero.  (A decrement of an already-zero degree would be a `usize`
underflow panic in Rust; it is unreachable and modelled as a skip.) -/
def processDependents (deps : Nat → List Nat) (popped : Nat) :
    List Nat → KState → KState
  | [], s => s
  | j :: js, s =>
      if popped ∈ deps j then
        match s.inDeg j with
        | 0 => processDependents deps popped js s
        | d + 1 =>
            processDependents deps popped js
              { inDeg := fun j' => if j' = j then d else s.inDeg j',
                heap := if d = 0 then s.heap ++ [j] else s.heap,
                result := s.result }
      else processDependents deps popped js s

/-- Closed form of `processDependents` over a duplicate-free dependent
list: in-degrees drop by one (saturating) exactly for the dependents of
the popped node, and the dependents that reach zero are appended. -/
theorem processDependents_spec (deps : Nat → List Nat) (popped : Nat) :
    ∀ (js : List Nat) (s : KState), js.Nodup →
    processDependents deps popped js s =
      { inDeg := fun j => if j ∈ js ∧ popped ∈ deps j then s.inDeg j - 1 else s.inDeg j,
        heap := s.heap ++ js.filter (fun j => decide (popped ∈ deps j) && (s.inDeg j == 1)),
        result := s.result }
  | [], s, _ => by simp [processDependents]
  | j :: js, s, hnd => by
      rcases List.nodup_cons.mp hnd with ⟨hj, hnd'⟩
      unfold processDependents
      by_cases hdep : popped ∈ deps j
      · rw [if_pos hdep]
        split
        next hd =>
          rw [processDependents_spec deps popped js s hnd']
          refine KState.ext ?_ ?_ rfl
          · funext j'
            by_cases hj' : j' = j
            · subst hj'
              simp [hd, hdep, hj]
            · simp [hj']
          · rw [List.filter_cons]
            have hc : (decide (popped ∈ deps j) && (s.inDeg j == 1)) = false := by
              simp [hd]
            rw [hc]
            simp
        next d hd =>
          rw [processDependents_spec deps popped js _ hnd']
          refine KState.ext ?_ ?_ rfl
          · funext j'
            by_cases hj' : j' = j
            · subst hj'
              simp [hd, hdep, hj]
            · simp only [List.mem_cons, hj', false_or]
              by_cases hmem : j' ∈ js ∧ popped ∈ deps j'
              · simp [hmem, hj']
              · simp [hmem, hj']
          · show (if d = 0 then s.heap ++ [j] else s.heap) ++
                List.filter (fun i => decide (popped ∈ deps i) &&
                  ((if i = j then d else s.inDeg i) == 1)) js = _
            have hfc : List.filter (fun i => decide (popped ∈ deps i) &&
                ((if i = j then d else s.inDeg i) == 1)) js =
                List.filter (fun i => decide (popped ∈ deps i) &&
                  (s.inDeg i == 1)) js := by
              refine List.filter_congr ?_
              intro a ha
              have : a ≠ j := fun hc => hj (hc ▸ ha)
              simp [this]
            rw [hfc, List.filter_cons]
            by_cases hd0 : d = 0
            · subst hd0
              have hc : (decide (popped ∈ deps j) && (s.inDeg j == 1)) = true := by
                simp [hd, hdep]
              rw [hc]
              simp
            · have hc : (decide (popped ∈ deps j) && (s.inDeg j == 1)) = false := by
                have : (s.inDeg j == 1) = false := by
                  simp [hd]
                  omega
                simp [this]
              rw [hc]
              simp [hd0]
      · rw [if_neg hdep]
        rw [processDependents_spec deps popped js s hnd']
        refine KState.ext ?_ ?_ rfl
        · funext j'
          by_cases hj' : j' = j
          · subst hj'
            simp [hdep]
          · simp [hj']
        · rw [List.filter_cons]
          have hc : (decide (popped ∈ deps j) && (s.inDeg j == 1)) = false := by
            simp [hdep]
          rw [hc]
          simp

theorem popBest_eq_none (prio : Nat → Nat) :
    ∀ {l : List Nat}, popBest prio l = none → l = []
  | [], _ => rfl
  | x :: xs, h => by
      unfold popBest at h
      match hx : popBest prio xs with
      | none => rw [hx] at h; cases h
      | some (y, ys) =>
          rw [hx] at h
          by_cases hb : heapBetter prio x y = true
      <;> simp [hb] at h

theorem popBest_perm (prio : Nat → Nat) :
    ∀ (l : List Nat) (x : Nat) (rest : List Nat),
    popBest prio l = some (x, rest) → l.Perm (x :: rest)
  | [], x, rest, h => by cases h
  | y :: ys, x, rest, h => by
      unfold popBest at h
      match hx : popBest prio ys with
      | none =>
          simp only [hx] at h
          have hys : ys = [] := popBest_eq_none prio hx
          subst hys
          rcases Option.some.inj h with h'
          rcases Prod.mk.injEq .. ▸ h' with ⟨rfl, rfl⟩
          exact List.Perm.refl _
      | some (z, zs) =>
          simp only [hx] at h
          by_cases hb : heapBetter prio y z = true
          · rw [if_pos hb] at h
            rcases Prod.mk.injEq .. ▸ Option.some.inj h with ⟨rfl, rfl⟩
            exact List.Perm.refl _
          · rw [if_neg hb] at h
            rcases Prod.mk.injEq .. ▸ Option.some.inj h with ⟨rfl, rfl⟩
            have ih := popBest_perm prio ys z zs hx
            exact (ih.cons y).trans (List.Perm.swap z y zs)

/-- Total remaining in-degree over the node range. -/
def sumDeg (n : Nat) (f : Nat → Nat) : Nat := ((List.range n).map f).sum

/-- Termination measure of the Kahn loop. -/
def kMeasure (n : Nat) (s : KState) : Nat := sumDeg n s.inDeg + s.heap.length

theorem sum_sub_filter (f : Nat → Nat) (p : Nat → Prop) [DecidablePred p] :
    ∀ L : List Nat,
    ((L.map (fun j => if p j then f j - 1 else f j)).sum +
      (L.filter (fun j => decide (p j) && (f j == 1))).length ≤ (L.map f).sum)
  | [] => by simp
  | a :: L => by
      have ih := sum_sub_filter f p L
      simp only [List.map_cons, List.sum_cons, List.filter_cons]
      by_cases hp : p a
      · by_cases h1 : f a = 1
        · simp only [if_pos hp, h1]
          simp only [decide_eq_true hp]
          norm_num
          omega
        · have hc : (decide (p a) && (f a == 1)) = false := by
            simp [h1]
          rw [hc, if_pos hp]
          simp only [Bool.false_eq_true, if_false]
          have : f a - 1 ≤ f a := Nat.sub_le _ _
          omega
      · have hc : (decide (p a) && (f a == 1)) = false := by
          simp [hp]
        rw [hc, if_neg hp]
        simp only [Bool.false_eq_true, if_false]
        omega

theorem processDependents_measure (n : Nat) (deps : Nat → List Nat) (x : Nat)
    (s : KState) :
    kMeasure n (processDependents deps x (List.range n) s) ≤ kMeasure n s := by
  rw [processDependents_spec deps x (List.range n) s (List.nodup_range n)]
  unfold kMeasure sumDeg
  simp only [List.length_append]
  have hmap : (List.range n).map
      (fun j => if j ∈ List.range n ∧ x ∈ deps j then s.inDeg j - 1 else s.inDeg j) =
      (List.range n).map (fun j => if x ∈ deps j then s.inDeg j - 1 else s.inDeg j) := by
    refine List.map_congr_left ?_
    intro a ha
    simp [ha]
  rw [hmap]
  have h := sum_sub_filter s.inDeg (fun j => x ∈ deps j) (List.range n)
  omega

/-- The `while let Some(...) = heap.pop()` loop of
`topological_sort_with_priority` (`src/pipeline/order.rs`): pop the best
node, record it, decrement its dependents (pushing those that reach
zero), and repeat until the heap is empty. -/
def kahnLoop (n : Nat) (deps : Nat → List Nat) (prio : Nat → Nat)
    (s : KState) : KState :=
  match _hpop : popBest prio s.heap with
  | none => s
  | some (x, rest) =>
      kahnLoop n deps prio
        (processDependents deps x (List.range n)
          { inDeg := s.inDeg, heap := rest, result := s.result ++ [x] })
termination_by kMeasure n s
decreasing_by
  have hle := processDependents_measure n deps x
    { inDeg := s.inDeg, heap := rest, result := s.result ++ [x] }
  have hperm := popBest_perm prio s.heap x rest _hpop
  have hlen := hperm.length_eq
  simp only [List.length_cons] at hlen
  unfold kMeasure at hle ⊢
  simp only at hle
  omega

/-- `topological_sort_with_priority` (`src/pipeline/order.rs`): Kahn's
algorithm on a `node → set-of-prerequisites` graph; in-degrees are the
prerequisite-set sizes, the heap starts with the zero-in-degree nodes,
and a cycle is reported exactly when fewer than `node_count` nodes were
emitted. -/
def topological_sort_with_priority (graph : Nat → List Nat)
    (node_count : Nat) (priority : Nat → Nat) : Except String (List Nat) :=
  let inDeg : Nat → Nat := fun j => (graph j).length
  let heap0 := (List.range node_count).filter (fun i => inDeg i = 0)
  let final := kahnLoop node_count graph priority
    { inDeg := inDeg, heap := heap0, result := [] }
  if final.result.length ≠ node_count then
    .error "Circular dependency detected"
  else
    .ok final.result

/-- `topological_sort` (`src/pipeline/order.rs`). -/
def topological_sort (graph : Nat → List Nat) (node_count : Nat) :
    Except String (List Nat) :=
  topological_sort_with_priority graph node_count (fun _ => 0)

/-- The loop invariant of `kahnLoop`: emitted and queued nodes are valid
and disjoint, in-degrees count the not-yet-emitted prerequisites, every
ready unemitted node is queued, queued and emitted nodes are fully
satisfied, and every emitted node's prerequisites were emitted before
it. -/
structure KInv (n : Nat) (deps : Nat → List Nat) (s : KState) : Prop where
  result_nodup : s.result.Nodup
  result_lt : ∀ i ∈ s.result, i < n
  heap_nodup : s.heap.Nodup
  heap_lt : ∀ i ∈ s.heap, i < n
  heap_notin_result : ∀ i ∈ s.heap, i ∉ s.result
  deg_eq : ∀ j, j < n →
    s.inDeg j = ((deps j).filter (fun d => d ∉ s.result)).length
  ready_in_heap : ∀ j, j < n → s.inDeg j = 0 → j ∉ s.result → j ∈ s.heap
  heap_deg : ∀ i ∈ s.heap, s.inDeg i = 0
  result_deg : ∀ i ∈ s.result, s.inDeg i = 0
  sound : ∀ (k : Nat) (hk : k < s.result.length),
    ∀ d ∈ deps (s.result.get ⟨k, hk⟩), d ∈ s.result.take k

theorem KInv.deps_sub_of_deg_zero {n : Nat} {deps : Nat → List Nat}
    {s : KState} (hinv : KInv n deps s) {j : Nat} (hj : j < n)
    (h0 : s.inDeg j = 0) : ∀ d ∈ deps j, d ∈ s.result := by
  intro d hd
  rw [hinv.deg_eq j hj] at h0
  rcases List.length_eq_zero.mp h0 with hfil
  by_contra hdnot
  have : d ∈ (deps j).filter (fun d => d ∉ s.result) :=
    List.mem_filter.mpr ⟨hd, by simpa using hdnot⟩
  rw [hfil] at this
  cases this

theorem KInv_init (n : Nat) (deps : Nat → List Nat) :
    KInv n deps
      { inDeg := fun j => (deps j).length,
        heap := (List.range n).filter (fun i => (deps i).length = 0),
        result := [] } where
  result_nodup := List.nodup_nil
  result_lt := by intro i hi; cases hi
  heap_nodup := (List.nodup_range n).filter _
  heap_lt := by
    intro i hi
    exact List.mem_range.mp (List.mem_filter.mp hi).1
  heap_notin_result := by intro i _ hi; cases hi
  deg_eq := by
    intro j _
    simp
  ready_in_heap := by
    intro j hj h0 _
    exact List.mem_filter.mpr ⟨List.mem_range.mpr hj, by simpa using h0⟩
  heap_deg := by
    intro i hi
    simpa using (List.mem_filter.mp hi).2
  result_deg := by intro i hi; cases hi
  sound := by intro k hk; simp at hk

/-- Removing one occurrence from a duplicate-free list by filtering
shortens it by exactly one. -/
theorem length_filter_ne_of_nodup : ∀ {L : List Nat} {x : Nat}, L.Nodup → x ∈ L →
    (L.filter (fun d => d ≠ x)).length = L.length - 1
  | [], _, _, hx => by cases hx
  | a :: L, x, hnd, hx => by
      rcases List.nodup_cons.mp hnd with ⟨ha, hnd'⟩
      rw [List.filter_cons]
      rcases List.mem_cons.mp hx with rfl | hx'
      · rw [if_neg (by simp)]
        have hfe : L.filter (fun d => d ≠ x) = L := by
          refine List.filter_eq_self.mpr ?_
          intro d hd
          refine decide_eq_true ?_
          intro hdx
          exact ha (hdx ▸ hd)
        rw [List.length_cons, hfe]
        omega
      · have hax : a ≠ x := fun h => ha (h ▸ hx')
        have hpos : 0 < L.length := List.length_pos.mpr (List.ne_nil_of_mem hx')
        have ih := length_filter_ne_of_nodup hnd' hx'
        rw [if_pos (by simpa using hax)]
        rw [List.length_cons, ih, List.length_cons]
        omega

/-- Appending a node whose prerequisites are all already emitted
preserves the soundness invariant. -/
theorem sound_append (r : List Nat) (x : Nat) (deps : Nat → List Nat)
    (hsr : ∀ (k : Nat) (hk : k < r.length), ∀ d ∈ deps (r.get ⟨k, hk⟩), d ∈ r.take k)
    (hx : ∀ d ∈ deps x, d ∈ r) (k : Nat) (hk : k < (r ++ [x]).length) :
    ∀ d ∈ deps ((r ++ [x]).get ⟨k, hk⟩), d ∈ (r ++ [x]).take k := by
  intro d hd
  have hklen : k < r.length + 1 := by simpa using hk
  by_cases hklt : k < r.length
  · have hget : (r ++ [x]).get ⟨k, hk⟩ = r.get ⟨k, hklt⟩ := by
      simp [List.get_eq_getElem, List.getElem_append_left hklt]
    rw [hget] at hd
    have hmem := hsr k hklt d hd
    rw [List.take_append_eq_append_take]
    have h0 : k - r.length = 0 := by omega
    rw [h0]
    simpa using hmem
  · have hkeq : k = r.length := by omega
    subst hkeq
    have hget : (r ++ [x]).get ⟨r.length, hk⟩ = x := by
      simp [List.get_eq_getElem]
    rw [hget] at hd
    rw [List.take_append_eq_append_take]
    simpa using hx d hd

/-- One iteration of the Kahn loop preserves the invariant: popping `x`,
emitting it, and decrementing its dependents keeps every `KInv` field. -/
theorem KInv_step (n : Nat) (deps : Nat → List Nat) (prio : Nat → Nat)
    (hnd : ∀ j, (deps j).Nodup) (s : KState) (x : Nat) (rest : List Nat)
    (hpop : popBest prio s.heap = some (x, rest)) (hinv : KInv n deps s) :
    KInv n deps (processDependents deps x (List.range n)
      { inDeg := s.inDeg, heap := rest, result := s.result ++ [x] }) := by
  have hperm := popBest_perm prio s.heap x rest hpop
  have hmem_iff : ∀ i, i ∈ s.heap ↔ i = x ∨ i ∈ rest := by
    intro i
    rw [hperm.mem_iff]
    simp
  have hx_heap : x ∈ s.heap := (hmem_iff x).mpr (Or.inl rfl)
  have hxr_nodup : (x :: rest).Nodup := hperm.nodup_iff.mp hinv.heap_nodup
  rcases List.nodup_cons.mp hxr_nodup with ⟨hx_rest, hrest_nodup⟩
  have hrest_sub : ∀ i ∈ rest, i ∈ s.heap := fun i hi => (hmem_iff i).mpr (Or.inr hi)
  have hx_lt : x < n := hinv.heap_lt x hx_heap
  have hx_deg : s.inDeg x = 0 := hinv.heap_deg x hx_heap
  have hx_notin : x ∉ s.result := hinv.heap_notin_result x hx_heap
  have hstate : processDependents deps x (List.range n)
      { inDeg := s.inDeg, heap := rest, result := s.result ++ [x] } =
      { inDeg := fun j => if j ∈ List.range n ∧ x ∈ deps j then s.inDeg j - 1 else s.inDeg j,
        heap := rest ++ (List.range n).filter
          (fun j => decide (x ∈ deps j) && (s.inDeg j == 1)),
        result := s.result ++ [x] } := by
    rw [processDependents_spec deps x (List.range n) _ (List.nodup_range n)]
  rw [hstate]
  refine ⟨?_, ?_, ?_, ?_, ?_, ?_, ?_, ?_, ?_, ?_⟩
  · -- result_nodup
    rw [List.nodup_append]
    refine ⟨hinv.result_nodup, List.nodup_singleton x, ?_⟩
    intro a ha hax
    rw [List.mem_singleton] at hax
    exact hx_notin (hax ▸ ha)
  · -- result_lt
    intro i hi
    rcases List.mem_append.mp hi with hi | hi
    · exact hinv.result_lt i hi
    · rw [List.mem_singleton] at hi
      subst hi
      exact hx_lt
  · -- heap_nodup
    rw [List.nodup_append]
    refine ⟨hrest_nodup, (List.nodup_range n).filter _, ?_⟩
    intro a ha haf
    have h0 : s.inDeg a = 0 := hinv.heap_deg a (hrest_sub a ha)
    rcases List.mem_filter.mp haf with ⟨-, hcond⟩
    rw [Bool.and_eq_true] at hcond
    have h1 : s.inDeg a = 1 := by simpa using hcond.2
    omega
  · -- heap_lt
    intro i hi
    rcases List.mem_append.mp hi with hi | hi
    · exact hinv.heap_lt i (hrest_sub i hi)
    · exact List.mem_range.mp (List.mem_filter.mp hi).1
  · -- heap_notin_result
    intro i hi hir
    rcases List.mem_append.mp hi with hi1 | hi2
    · rcases List.mem_append.mp hir with hir1 | hir2
      · exact hinv.heap_notin_result i (hrest_sub i hi1) hir1
      · rw [List.mem_singleton] at hir2
        rw [hir2] at hi1
        exact hx_rest hi1
    · rcases List.mem_filter.mp hi2 with ⟨hiR, hcond⟩
      rw [Bool.and_eq_true] at hcond
      have h1 : s.inDeg i = 1 := by simpa using hcond.2
      rcases List.mem_append.mp hir with hir1 | hir2
      · have := hinv.result_deg i hir1
        omega
      · rw [List.mem_singleton] at hir2
        rw [hir2] at h1
        omega
  · -- deg_eq
    intro j hj
    dsimp only
    by_cases hdep : x ∈ deps j
    · rw [if_pos ⟨List.mem_range.mpr hj, hdep⟩, hinv.deg_eq j hj]
      have hLnd : ((deps j).filter (fun d => d ∉ s.result)).Nodup :=
        (hnd j).filter _
      have hxL : x ∈ (deps j).filter (fun d => d ∉ s.result) :=
        List.mem_filter.mpr ⟨hdep, by simpa using hx_notin⟩
      have hsplit : (deps j).filter (fun d => d ∉ s.result ++ [x]) =
          ((deps j).filter (fun d => d ∉ s.result)).filter (fun d => d ≠ x) := by
        rw [List.filter_filter]
        refine List.filter_congr ?_
        intro a _
        by_cases h1 : a ∈ s.result <;> by_cases h2 : a = x <;>
          simp [h1, h2, List.mem_append]
      rw [hsplit, length_filter_ne_of_nodup hLnd hxL]
    · rw [if_neg (fun hc => hdep hc.2), hinv.deg_eq j hj]
      congr 1
      refine List.filter_congr ?_
      intro a ha
      have hax : a ≠ x := fun h => hdep (h ▸ ha)
      simp [List.mem_append, hax]
  · -- ready_in_heap
    intro j hj h0 hjr
    dsimp only at h0 hjr ⊢
    have hjr1 : j ∉ s.result := fun hc => hjr (List.mem_append.mpr (Or.inl hc))
    have hjr2 : j ≠ x := fun hc =>
      hjr (List.mem_append.mpr (Or.inr (by rw [hc]; exact List.mem_singleton_self x)))
    by_cases hdep : x ∈ deps j
    · rw [if_pos ⟨List.mem_range.mpr hj, hdep⟩] at h0
      have hne : s.inDeg j ≠ 0 := by
        intro hz
        exact hx_notin (hinv.deps_sub_of_deg_zero hj hz x hdep)
      have h1 : s.inDeg j = 1 := by omega
      refine List.mem_append.mpr (Or.inr (List.mem_filter.mpr
        ⟨List.mem_range.mpr hj, ?_⟩))
      rw [Bool.and_eq_true]
      exact ⟨by simpa using hdep, by simpa using h1⟩
    · rw [if_neg (fun hc => hdep hc.2)] at h0
      have hjh : j ∈ s.heap := hinv.ready_in_heap j hj h0 hjr1
      rcases (hmem_iff j).mp hjh with hc | hc
      · exact absurd hc hjr2
      · exact List.mem_append.mpr (Or.inl hc)
  · -- heap_deg
    intro i hi
    dsimp only at hi ⊢
    rcases List.mem_append.mp hi with hi | hi
    · have h0 : s.inDeg i = 0 := hinv.heap_deg i (hrest_sub i hi)
      split
      · omega
      · exact h0
    · rcases List.mem_filter.mp hi with ⟨hiR, hcond⟩
      rw [Bool.and_eq_true] at hcond
      have hdep : x ∈ deps i := by simpa using hcond.1
      have h1 : s.inDeg i = 1 := by simpa using hcond.2
      rw [if_pos ⟨hiR, hdep⟩]
      omega
  · -- result_deg
    intro i hi
    dsimp only at hi ⊢
    have h0 : s.inDeg i = 0 := by
      rcases List.mem_append.mp hi with hi | hi
      · exact hinv.result_deg i hi
      · rw [List.mem_singleton] at hi
        subst hi
        exact hx_deg
    split
    · omega
    · exact h0
  · -- sound
    exact sound_append s.result x deps hinv.sound
      (hinv.deps_sub_of_deg_zero hx_lt hx_deg)

/-- The Kahn loop preserves the invariant and terminates with an empty
heap. -/
theorem kahnLoop_inv (n : Nat) (deps : Nat → List Nat) (prio : Nat → Nat)
    (hnd : ∀ j, (deps j).Nodup) (s : KState) :
    KInv n deps s → KInv n deps (kahnLoop n deps prio s) ∧
      (kahnLoop n deps prio s).heap = [] := by
  induction s using kahnLoop.induct n deps prio with
  | case1 s hpop =>
      intro hinv
      rw [kahnLoop]
      split
      next hpop2 =>
        exact ⟨hinv, popBest_eq_none prio hpop2⟩
      next x rest hpop2 =>
        rw [hpop] at hpop2
        cases hpop2
  | case2 s x rest hpop ih =>
      intro hinv
      rw [kahnLoop]
      split
      next hpop2 =>
        rw [hpop] at hpop2
        cases hpop2
      next x' rest' hpop2 =>
        rw [hpop] at hpop2
        have heq := Option.some.inj hpop2
        have hxx : x = x' := congrArg Prod.fst heq
        have hrr : rest = rest' := congrArg Prod.snd heq
        rw [← hxx, ← hrr]
        exact ih (KInv_step n deps prio hnd s x rest hpop hinv)

/-- A dependency cycle among the nodes `0..n`: a nonempty set of nodes
each of which has a prerequisite inside the set.  (A graph has such a set
iff it has a directed cycle.) -/
def hasCycleSet (n : Nat) (deps : Nat → List Nat) : Prop :=
  ∃ S ∈ (Finset.range n).powerset, S.Nonempty ∧ ∀ i ∈ S, ∃ d ∈ deps i, d ∈ S

instance (n : Nat) (deps : Nat → List Nat) : Decidable (hasCycleSet n deps) :=
  inferInstanceAs (Decidable (∃ S ∈ (Finset.range n).powerset,
    S.Nonempty ∧ ∀ i ∈ S, ∃ d ∈ deps i, d ∈ S))

theorem length_le_of_nodup_lt {l : List Nat} {n : Nat} (hnd : l.Nodup)
    (hlt : ∀ i ∈ l, i < n) : l.length ≤ n := by
  have hsub : l.toFinset ⊆ Finset.range n := by
    intro a ha
    rw [List.mem_toFinset] at ha
    exact Finset.mem_range.mpr (hlt a ha)
  have hcard := Finset.card_le_card hsub
  rw [List.toFinset_card_of_nodup hnd] at hcard
  simpa using hcard

/-- If the loop halts with an empty heap but fewer than `n` emitted
nodes, the unemitted nodes form a cycle set. -/
theorem cycle_of_incomplete (n : Nat) (deps : Nat → List Nat) (s : KState)
    (hinv : KInv n deps s) (hheap : s.heap = []) (hlen : s.result.length ≠ n)
    (hsub : ∀ j, j < n → ∀ d ∈ deps j, d < n) : hasCycleSet n deps := by
  have hle := length_le_of_nodup_lt hinv.result_nodup hinv.result_lt
  have hlt : s.result.length < n := lt_of_le_of_ne hle hlen
  have hex : ∃ j, j < n ∧ j ∉ s.result := by
    by_contra hall
    push_neg at hall
    have hsub2 : Finset.range n ⊆ s.result.toFinset := by
      intro a ha
      rw [List.mem_toFinset]
      exact hall a (Finset.mem_range.mp ha)
    have hcard := Finset.card_le_card hsub2
    rw [List.toFinset_card_of_nodup hinv.result_nodup, Finset.card_range] at hcard
    omega
  obtain ⟨j0, hj0n, hj0r⟩ := hex
  refine ⟨(Finset.range n).filter (fun i => i ∉ s.result),
    Finset.mem_powerset.mpr (Finset.filter_subset _ _),
    ⟨j0, Finset.mem_filter.mpr ⟨Finset.mem_range.mpr hj0n, hj0r⟩⟩, ?_⟩
  intro i hi
  rcases Finset.mem_filter.mp hi with ⟨hiR, hir⟩
  have hin : i < n := Finset.mem_range.mp hiR
  have hdeg : s.inDeg i ≠ 0 := by
    intro h0
    have := hinv.ready_in_heap i hin h0 hir
    rw [hheap] at this
    cases this
  rw [hinv.deg_eq i hin] at hdeg
  have hne : (deps i).filter (fun d => d ∉ s.result) ≠ [] := by
    intro hc
    rw [hc] at hdeg
    exact hdeg rfl
  obtain ⟨d, hd⟩ := List.exists_mem_of_ne_nil _ hne
  rcases List.mem_filter.mp hd with ⟨hd1, hd2⟩
  refine ⟨d, hd1, Finset.mem_filter.mpr
    ⟨Finset.mem_range.mpr (hsub i hin d hd1), ?_⟩⟩
  simpa using hd2

/-- A sound order never contains a member of a cycle set. -/
theorem result_disjoint_cycle (deps : Nat → List Nat) (S : Finset Nat)
    (hS : ∀ i ∈ S, ∃ d ∈ deps i, d ∈ S) (r : List Nat)
    (hsound : ∀ (k : Nat) (hk : k < r.length),
      ∀ d ∈ deps (r.get ⟨k, hk⟩), d ∈ r.take k) :
    ∀ (k : Nat) (hk : k < r.length), r.get ⟨k, hk⟩ ∉ S := by
  intro k
  induction k using Nat.strong_induction_on with
  | _ k ih =>
    intro hk hkS
    obtain ⟨d, hd, hdS⟩ := hS _ hkS
    have hdtake := hsound k hk d hd
    obtain ⟨⟨k', hk'len⟩, hget⟩ := List.mem_iff_get.mp hdtake
    have hk'k : k' < k := lt_of_lt_of_le hk'len
      (by rw [List.length_take]; exact min_le_left _ _)
    have hk'r : k' < r.length := lt_of_lt_of_le hk'len
      (by rw [List.length_take]; exact min_le_right _ _)
    have hgetr : r.get ⟨k', hk'r⟩ = d := by
      rw [← hget]
      simp [List.get_eq_getElem, List.getElem_take]
    exact ih k' hk'k hk'r (by rw [hgetr]; exact hdS)

/-- A cycle set forces the loop to emit fewer than `n` nodes. -/
theorem incomplete_of_cycle (n : Nat) (deps : Nat → List Nat) (s : KState)
    (hinv : KInv n deps s) (hcyc : hasCycleSet n deps) :
    s.result.length < n := by
  obtain ⟨S, hSsub, hSne, hScyc⟩ := hcyc
  have hSsub' : S ⊆ Finset.range n := Finset.mem_powerset.mp hSsub
  have hdisj : ∀ i ∈ s.result, i ∉ S := by
    intro i hi hiS
    obtain ⟨⟨k, hk⟩, hget⟩ := List.mem_iff_get.mp hi
    exact result_disjoint_cycle deps S hScyc s.result hinv.sound k hk
      (by rw [hget]; exact hiS)
  have hsub2 : s.result.toFinset ∪ S ⊆ Finset.range n := by
    intro a ha
    rcases Finset.mem_union.mp ha with ha | ha
    · exact Finset.mem_range.mpr (hinv.result_lt a (List.mem_toFinset.mp ha))
    · exact hSsub' ha
  have hdisj2 : Disjoint s.result.toFinset S := by
    rw [Finset.disjoint_left]
    intro a ha
    exact hdisj a (List.mem_toFinset.mp ha)
  have hcard := Finset.card_le_card hsub2
  rw [Finset.card_union_of_disjoint hdisj2,
    List.toFinset_card_of_nodup hinv.result_nodup, Finset.card_range] at hcard
  have hSpos : 0 < S.card := Finset.card_pos.mpr hSne
  omega

/-- The state in which the Kahn loop of `topological_sort_with_priority`
halts. -/
def kahnFinal (graph : Nat → List Nat) (n : Nat) (prio : Nat → Nat) : KState :=
  kahnLoop n graph prio
    { inDeg := fun j => (graph j).length,
      heap := (List.range n).filter (fun i => (graph i).length = 0),
      result := [] }

theorem topo_eq_kahnFinal (graph : Nat → List Nat) (n : Nat)
    (prio : Nat → Nat) :
    topological_sort_with_priority graph n prio =
      if (kahnFinal graph n prio).result.length ≠ n then
        Except.error "Circular dependency detected"
      else Except.ok (kahnFinal graph n prio).result := rfl

theorem kahnFinal_inv (graph : Nat → List Nat) (n : Nat) (prio : Nat → Nat)
    (hnd : ∀ j, (graph j).Nodup) :
    KInv n graph (kahnFinal graph n prio) ∧
      (kahnFinal graph n prio).heap = [] :=
  kahnLoop_inv n graph prio hnd _ (KInv_init n graph)

/-- `topological_sort_with_priority` succeeds exactly on cycle-free
graphs. -/
theorem topo_ok_iff_acyclic (graph : Nat → List Nat) (n : Nat)
    (prio : Nat → Nat) (hnd : ∀ j, (graph j).Nodup)
    (hsub : ∀ j, j < n → ∀ d ∈ graph j, d < n) :
    (∃ order, topological_sort_with_priority graph n prio =
      Except.ok order) ↔ ¬ hasCycleSet n graph := by
  obtain ⟨hinv, hheap⟩ := kahnFinal_inv graph n prio hnd
  rw [topo_eq_kahnFinal]
  constructor
  · rintro ⟨order, hok⟩ hcyc
    have hlt := incomplete_of_cycle n graph _ hinv hcyc
    rw [if_pos (by omega)] at hok
    cases hok
  · intro hacyc
    by_cases hlen : (kahnFinal graph n prio).result.length ≠ n
    · exact absurd (cycle_of_incomplete n graph _ hinv hheap hlen hsub) hacyc
    · exact ⟨_, by rw [if_neg hlen]⟩

/-- Kahn's algorithm reports the cycle exactly when it emitted fewer
nodes than the node count. -/
theorem topo_err_iff_short (graph : Nat → List Nat) (n : Nat)
    (prio : Nat → Nat) (hnd : ∀ j, (graph j).Nodup) :
    (∃ e, topological_sort_with_priority graph n prio = Except.error e) ↔
      (kahnFinal graph n prio).result.length < n := by
  obtain ⟨hinv, _⟩ := kahnFinal_inv graph n prio hnd
  have hle := length_le_of_nodup_lt hinv.result_nodup hinv.result_lt
  rw [topo_eq_kahnFinal]
  constructor
  · rintro ⟨e, herr⟩
    by_cases hlen : (kahnFinal graph n prio).result.length ≠ n
    · omega
    · rw [if_neg hlen] at herr
      cases herr
  · intro hlt
    exact ⟨_, by rw [if_pos (by omega)]⟩

/-- Every returned order is duplicate-free, enumerates all `n` nodes,
and emits every node after all its prerequisites. -/
theorem topo_sound (graph : Nat → List Nat) (n : Nat) (prio : Nat → Nat)
    (order : List Nat) (hnd : ∀ j, (graph j).Nodup)
    (hok : topological_sort_with_priority graph n prio = Except.ok order) :
    order.Nodup ∧ order.length = n ∧ (∀ i ∈ order, i < n) ∧
      (∀ i, i < n → i ∈ order) ∧
      ∀ (k : Nat) (hk : k < order.length),
        ∀ d ∈ graph (order.get ⟨k, hk⟩), d ∈ order.take k := by
  obtain ⟨hinv, _⟩ := kahnFinal_inv graph n prio hnd
  rw [topo_eq_kahnFinal] at hok
  by_cases hlen : (kahnFinal graph n prio).result.length ≠ n
  · rw [if_pos hlen] at hok
    cases hok
  · rw [if_neg hlen] at hok
    have horder : order = (kahnFinal graph n prio).result :=
      (Except.ok.inj hok).symm
    subst horder
    push_neg at hlen
    refine ⟨hinv.result_nodup, hlen, hinv.result_lt, ?_, hinv.sound⟩
    intro i hin
    have hsubf : (kahnFinal graph n prio).result.toFinset ⊆ Finset.range n := by
      intro a ha
      exact Finset.mem_range.mpr (hinv.result_lt a (List.mem_toFinset.mp ha))
    have hcard : (kahnFinal graph n prio).result.toFinset.card = n := by
      rw [List.toFinset_card_of_nodup hinv.result_nodup, hlen]
    have heqf : (kahnFinal graph n prio).result.toFinset = Finset.range n :=
      Finset.eq_of_subset_of_card_le hsubf (by rw [hcard, Finset.card_range])
    have : i ∈ (kahnFinal graph n prio).result.toFinset := by
      rw [heqf]
      exact Finset.mem_range.mpr hin
    exact List.mem_toFinset.mp this

/-! ### Hash maps as association lists.  `HashMap::insert` removes the
old binding and appends the new one; `entry().or_insert` keeps the old
binding. -/

def hmInsert {κ ν : Type} [DecidableEq κ] (m : List (κ × ν)) (k : κ) (v : ν) :
    List (κ × ν) :=
  m.filter (fun kv => kv.1 ≠ k) ++ [(k, v)]

def hmGet {κ ν : Type} [DecidableEq κ] (m : List (κ × ν)) (k : κ) : Option ν :=
  (m.find? (fun kv => decide (kv.1 = k))).map Prod.snd

def hmInsertIfAbsent {κ ν : Type} [DecidableEq κ] (m : List (κ × ν)) (k : κ)
    (v : ν) : List (κ × ν) :=
  match hmGet m k with
  | some _ => m
  | none => hmInsert m k v

/-! ### Command and namespace records (`src/spec/command.rs`,
`src/namespace/mod.rs`).  `dependencies: HashSet<StorePath>` is a list
of segment lists; `provides_extensions`/`requires_extensions` are read
by `src/pipeline/order.rs` and `src/pipeline/draft.rs` though their
declaration (and `ExtensionKey`) is absent from `src/` — `ExtensionKey`
is modelled as `String`.  `builder` and `expected_results` are not
consulted by ordering or compilation checks and are omitted. -/

structure CommandSpec where
  namespace_index : Nat
  name : String
  attributes : ScalarMap
  exepected_attributes : List AttributeSpec
  dependencies : List (List String)
  provides_extensions : List String
  requires_extensions : List String

/-- `ExecutionMode` (`src/namespace/mod.rs`).  The `source:
IteratorType` field of `Iterative` is not consulted by ordering or
compile-time checks and is omitted. -/
inductive ExecutionModeK where
  | Once
  | Iterative (store_path : List String) (iter_var index_var : Option String)
  | StaticNs (values : ScalarMap)

/-- `Namespace` (`src/namespace/mod.rs`). -/
structure Namespace where
  name : String
  ty : ExecutionModeK

/-- `RESERVED_NAMESPACES` (`src/namespace/mod.rs`). -/
def RESERVED_NAMESPACES : List String := ["item", "index"]

/-- `StorePath::starts_with` (`src/values/mod.rs`). -/
def StorePath.starts_with (p other : List String) : Bool :=
  if other.length > p.length then false
  else (p.zip other).all (fun ab => ab.1 == ab.2)

/-- `StorePath::namespace` (`src/values/mod.rs`): the first segment
(`namespace` is a Lean keyword, hence the name). -/
def StorePath.namespaceOf (p : List String) : Option String := p.head?

/-! ### Attribute validation (`src/pipeline/validation.rs`).  As in the
dependency-extraction model, `identsOf` abstracts the external tera
parse; `validate_reference` succeeds exactly when the parse does. -/

/-- `scalar_type_of` (`src/values/helpers.rs`). -/
def scalar_type_of : ScalarValue → ScalarType
  | .null => .Null
  | .bool _ => .Bool
  | .num _ => .Number
  | .str _ => .String
  | .arr _ => .Array
  | .obj _ => .Object

/-- `validate_scalar` (`src/pipeline/validation.rs`). -/
def validate_scalar (value : ScalarValue) (expected : ScalarType)
    (path : String) : Except String Unit :=
  if scalar_type_of value = expected then .ok ()
  else .error ("'" ++ path ++ "' has mismatched scalar type")

/-- `validate_reference` (`src/pipeline/validation.rs`). -/
def validate_reference (identsOf : String → Option (List String))
    (value : ScalarValue) (reference_kind : ReferenceKind) (path : String) :
    Except String Unit :=
  match reference_kind with
  | .StaticTeraTemplate =>
      match value with
      | .str s =>
          match identsOf s with
          | some _ => .ok ()
          | none => .error ("Invalid template syntax in '" ++ path ++ "'")
      | _ => .ok ()
  | .RuntimeTeraTemplate =>
      match value with
      | .str s =>
          match identsOf ("\x7b\x7b " ++ s ++ " \x7d\x7d") with
          | some _ => .ok ()
          | none => .error ("Invalid conditional syntax in '" ++ path ++ "'")
      | _ => .ok ()
  | .StorePath => .ok ()
  | .Unsupported => .ok ()

mutual
/-- `validate_value` (`src/pipeline/validation.rs`). -/
def validate_value (identsOf : String → Option (List String))
    (value : ScalarValue) (ty : TypeDef) (path : String) :
    Except String Unit :=
  match ty with
  | .Scalar st => validate_scalar value st path
  | .Tabular =>
      .error ("'" ++ path ++ "' expected Tabular (DataFrame), but got a ScalarValue")
  | .ArrayOf inner =>
      match value with
      | .arr items => validate_items identsOf items inner path 0
      | _ => .error ("'" ++ path ++ "' must be an array")
  | .ObjectOf fields =>
      match value with
      | .obj m => validate_object identsOf m fields path
      | _ => .error ("'" ++ path ++ "' must be an object")

/-- The per-element loop of the `ArrayOf` arm of `validate_value`. -/
def validate_items (identsOf : String → Option (List String))
    (items : List ScalarValue) (inner : TypeDef) (path : String) (i : Nat) :
    Except String Unit :=
  match items with
  | [] => .ok ()
  | item :: rest =>
      match validate_value identsOf item inner
          (path ++ "[" ++ toString i ++ "]") with
      | .ok _ => validate_items identsOf rest inner path (i + 1)
      | .error e => .error e

/-- `validate_object` (`src/pipeline/validation.rs`). -/
def validate_object (identsOf : String → Option (List String))
    (m : ScalarMap) (fields : List FieldSpec) (path : String) :
    Except String Unit :=
  match fields with
  | [] => .ok ()
  | .mk fname fty freq _ frk :: rest =>
      let field_path := if path = "" then fname else path ++ "." ++ fname
      match mapGet m fname with
      | some value =>
          match validate_value identsOf value fty field_path with
          | .error e => .error e
          | .ok _ =>
              match validate_reference identsOf value frk field_path with
              | .error e => .error e
              | .ok _ => validate_object identsOf m rest path
      | none =>
          if freq then .error ("missing required field '" ++ field_path ++ "'")
          else validate_object identsOf m rest path
end

/-- `validate_attributes` (`src/pipeline/validation.rs`). -/
def validate_attributes (identsOf : String → Option (List String))
    (attrs : ScalarMap) (specs : List AttributeSpec) : Except String Unit :=
  match specs with
  | [] => .ok ()
  | spec :: rest =>
      match mapGet attrs spec.name with
      | some value =>
          match validate_value identsOf value spec.ty spec.name with
          | .error e => .error e
          | .ok _ =>
              match validate_reference identsOf value spec.reference_kind
                  spec.name with
              | .error e => .error e
              | .ok _ => validate_attributes identsOf attrs rest
      | none =>
          if spec.required then
            .error ("missing required attribute '" ++ spec.name ++ "'")
          else validate_attributes identsOf attrs rest

/-! ### Command ordering (`compute_command_order`,
`src/pipeline/order.rs`).  `enumerate()` over the command slice is the
fold over `List.range`; the `HashSet<usize>` of edges is the deduped
edge list. -/

/-- The `prefix_to_idx` map: `[namespace, command.name] → idx`, later
commands overwriting earlier ones with the same name. -/
def prefix_to_idx (commands : List CommandSpec) (ns : String) :
    List (List String × Nat) :=
  (List.range commands.length).foldl
    (fun m i =>
      match commands[i]? with
      | some c => hmInsert m [ns, c.name] i
      | none => m) []

/-- The `ext_provider_idx` map of `compute_command_order`: plain
`insert`, so the last providing command wins. -/
def ext_provider_idx (commands : List CommandSpec) : List (String × Nat) :=
  (List.range commands.length).foldl
    (fun m i =>
      match commands[i]? with
      | some c => c.provides_extensions.foldl (fun m2 k => hmInsert m2 k i) m
      | none => m) []

/-- The per-command prerequisite set of `compute_command_order`:
dependency-path edges to every other command whose `[namespace, name]`
prefix the path starts with, plus extension-provider edges. -/
def commandGraph (commands : List CommandSpec) (ns : String) (idx : Nat) :
    List Nat :=
  match commands[idx]? with
  | none => []
  | some c =>
      let pmap := prefix_to_idx commands ns
      let depEdges := (c.dependencies.map (fun dep =>
        pmap.filterMap (fun kv =>
          if StorePath.starts_with dep kv.1 ∧ kv.2 ≠ idx then some kv.2
          else none))).flatten
      let extEdges := c.requires_extensions.filterMap (fun k =>
        match hmGet (ext_provider_idx commands) k with
        | some p => if p ≠ idx then some p else none
        | none => none)
      (depEdges ++ extEdges).dedup

/-- `compute_command_order` (`src/pipeline/order.rs`). -/
def compute_command_order (commands : List CommandSpec) (ns : String) :
    Except String (List Nat) :=
  if commands.isEmpty then .ok []
  else
    match topological_sort (commandGraph commands ns) commands.length with
    | .ok order => .ok order
    | .error _ => .error "Circular dependency detected in command execution order"

/-! ### Namespace ordering (`compute_namespace_order`,
`src/pipeline/order.rs`). -/

/-- The `name_to_idx` map over the namespace list. -/
def name_to_idx (namespaces : List Namespace) : List (String × Nat) :=
  (List.range namespaces.length).foldl
    (fun m i =>
      match namespaces[i]? with
      | some ns => hmInsert m ns.name i
      | none => m) []

/-- Edges from an iterative namespace to the namespace its `store_path`
names. -/
def nsIterEdges (namespaces : List Namespace) (idx : Nat) : List Nat :=
  match namespaces[idx]? with
  | none => []
  | some ns =>
      match ns.ty with
      | .Iterative store_path _ _ =>
          match StorePath.namespaceOf store_path with
          | some nsname =>
              match hmGet (name_to_idx namespaces) nsname with
              | some source_idx => if source_idx ≠ idx then [source_idx] else []
              | none => []
          | none => []
      | _ => []

/-- Edges from cross-namespace command dependencies. -/
def nsCmdEdges (namespaces : List Namespace) (commands : List CommandSpec)
    (idx : Nat) : List Nat :=
  (commands.map (fun c =>
    if c.namespace_index = idx then
      c.dependencies.filterMap (fun dep =>
        match StorePath.namespaceOf dep with
        | some dn =>
            match hmGet (name_to_idx namespaces) dn with
            | some di => if di ≠ idx then some di else none
            | none => none
        | none => none)
    else [])).flatten

/-- The `extension_providers` map of `compute_namespace_order`:
`entry().or_insert`, so the first providing command wins. -/
def extension_providers_ns (commands : List CommandSpec) :
    List (String × Nat) :=
  commands.foldl (fun m c =>
    c.provides_extensions.foldl
      (fun m2 k => hmInsertIfAbsent m2 k c.namespace_index) m) []

/-- Edges from extension requirements to the providing namespace. -/
def nsExtEdges (commands : List CommandSpec) (idx : Nat) : List Nat :=
  (commands.map (fun c =>
    if c.namespace_index = idx then
      c.requires_extensions.filterMap (fun k =>
        match hmGet (extension_providers_ns commands) k with
        | some p => if p ≠ idx then some p else none
        | none => none)
    else [])).flatten

/-- The namespace prerequisite graph of `compute_namespace_order`. -/
def namespaceGraph (namespaces : List Namespace)
    (commands : List CommandSpec) (idx : Nat) : List Nat :=
  if idx < namespaces.length then
    (nsIterEdges namespaces idx ++ nsCmdEdges namespaces commands idx ++
      nsExtEdges commands idx).dedup
  else []

/-- The `priority` map: namespaces owning an extension-providing command
get priority 1. -/
def nsPriorityMap (commands : List CommandSpec) : List (Nat × Nat) :=
  commands.foldl (fun m c =>
    if c.provides_extensions.isEmpty then m
    else
      let cur := (hmGet m c.namespace_index).getD 0
      hmInsert m c.namespace_index (max cur 1)) []

def nsPriority (commands : List CommandSpec) (idx : Nat) : Nat :=
  (hmGet (nsPriorityMap commands) idx).getD 0

/-- `compute_namespace_order` (`src/pipeline/order.rs`). -/
def compute_namespace_order (namespaces : List Namespace)
    (commands : List CommandSpec) : Except String (List Nat) :=
  if namespaces.isEmpty then .ok []
  else
    match topological_sort_with_priority (namespaceGraph namespaces commands)
        namespaces.length (nsPriority commands) with
    | .ok order => .ok order
    | .error _ =>
        .error "Circular dependency detected in namespace execution order"

/-- `ExecutionPlan::new` (`src/pipeline/order.rs`): the only validation
it performs is computing the namespace order. -/
def ExecutionPlan_new (namespaces : List Namespace)
    (commands : List CommandSpec) : Except String (List Nat) :=
  compute_namespace_order namespaces commands

/-! ### `Pipeline::<Draft>::compile` (`src/pipeline/draft.rs`): the
validation battery.  Service hooks and the typestate transition carry no
store-visible behaviour and are omitted; the result is the verdict. -/

/-- Modelled from the spec: `compile` re-verifies namespace-name
uniqueness, reserved-name exclusion, and command-name uniqueness per
namespace (the `command_ns_pairs_iter` helper it iterates is not present
in `src/`). -/
def compile_name_checks (namespaces : List Namespace)
    (commands : List CommandSpec) : Except String Unit :=
  if ¬ (namespaces.map Namespace.name).Nodup then
    .error "Duplicate namespace name found during compilation"
  else if namespaces.any (fun ns => RESERVED_NAMESPACES.contains ns.name) then
    .error "Reserved namespace name used during compilation"
  else if ¬ (∀ i < namespaces.length,
      ((commands.filter (fun c => c.namespace_index = i)).map
        CommandSpec.name).Nodup) then
    .error "Duplicate command name found in namespace during compilation"
  else .ok ()

/-- The namespace-type validation loop of `compile`: an iterative
namespace must have a non-empty `store_path`. -/
def compile_ns_type_checks (namespaces : List Namespace) :
    Except String Unit :=
  if namespaces.any (fun ns =>
      match ns.ty with
      | .Iterative store_path _ _ => store_path.isEmpty
      | _ => false) then
    .error "Iterative namespace has an empty store_path"
  else .ok ()

/-- The attribute-validation loop of `compile`. -/
def compile_attr_checks (identsOf : String → Option (List String))
    (commands : List CommandSpec) : Except String Unit :=
  match commands with
  | [] => .ok ()
  | c :: rest =>
      match validate_attributes identsOf c.attributes c.exepected_attributes with
      | .error e => .error e
      | .ok _ => compile_attr_checks identsOf rest

/-- The `extension_providers` map of the extension-validation block of
`compile`: every provider is recorded. -/
def extension_providers_full (namespaces : List Namespace)
    (commands : List CommandSpec) : List (String × List (String × String)) :=
  commands.foldl (fun m c =>
    let ns_name := match namespaces[c.namespace_index]? with
      | some ns => ns.name
      | none => ""
    c.provides_extensions.foldl (fun m2 k =>
      let cur := (hmGet m2 k).getD []
      hmInsert m2 k (cur ++ [(ns_name, c.name)])) m) []

/-- The extension-validation block of `compile`: every extension has at
most one provider, and every required extension has one. -/
def compile_extension_checks (namespaces : List Namespace)
    (commands : List CommandSpec) : Except String Unit :=
  let providers := extension_providers_full namespaces commands
  if providers.any (fun kv => decide (1 < kv.2.length)) then
    .error "Extension is provided by multiple commands"
  else if commands.any (fun c =>
      c.requires_extensions.any (fun k => (hmGet providers k).isNone)) then
    .error "Command requires an extension no command provides"
  else .ok ()

/-- `Pipeline::<Draft>::compile` (`src/pipeline/draft.rs`): the check
sequence; `Ok` stands for the transition to `Ready`. -/
def compile (identsOf : String → Option (List String))
    (namespaces : List Namespace) (commands : List CommandSpec) :
    Except String Unit := do
  compile_name_checks namespaces commands
  compile_ns_type_checks namespaces
  compile_attr_checks identsOf commands
  compile_extension_checks namespaces commands
  match ExecutionPlan_new namespaces commands with
  | .error e =>
      throw ("Execution plan validation failed during compilation: " ++ e)
  | .ok _ => pure ()

/-! ### A fuel-indexed evaluator for the Kahn loop, used to compute
concrete runs (the well-founded `kahnLoop` does not reduce
definitionally). -/

def kahnLoopF : Nat → Nat → (Nat → List Nat) → (Nat → Nat) → KState → KState
  | 0, _, _, _, s => s
  | fuel + 1, n, deps, prio, s =>
      match popBest prio s.heap with
      | none => s
      | some (x, rest) =>
          kahnLoopF fuel n deps prio
            (processDependents deps x (List.range n)
              { inDeg := s.inDeg, heap := rest, result := s.result ++ [x] })

theorem kahnLoop_eq_fuel (n : Nat) (deps : Nat → List Nat)
    (prio : Nat → Nat) :
    ∀ (fuel : Nat) (s : KState), kMeasure n s < fuel →
    kahnLoop n deps prio s = kahnLoopF fuel n deps prio s := by
  intro fuel
  induction fuel with
  | zero => intro s h; omega
  | succ fuel ih =>
      intro s h
      rw [kahnLoop]
      show _ = kahnLoopF (fuel + 1) n deps prio s
      simp only [kahnLoopF]
      split
      next hpop => simp only [hpop]
      next x rest hpop =>
        simp only [hpop]
        apply ih
        have hle := processDependents_measure n deps x
          { inDeg := s.inDeg, heap := rest, result := s.result ++ [x] }
        have hperm := popBest_perm prio s.heap x rest hpop
        have hlen := hperm.length_eq
        simp only [List.length_cons] at hlen
        unfold kMeasure at hle h ⊢
        simp only at hle
        omega

theorem topo_eval (graph : Nat → List Nat) (n : Nat) (prio : Nat → Nat)
    (fuel : Nat)
    (hfuel : kMeasure n
      { inDeg := fun j => (graph j).length,
        heap := (List.range n).filter (fun i => (graph i).length = 0),
        result := [] } < fuel) :
    topological_sort_with_priority graph n prio =
      if (kahnLoopF fuel n graph prio
          { inDeg := fun j => (graph j).length,
            heap := (List.range n).filter (fun i => (graph i).length = 0),
            result := [] }).result.length ≠ n then
        Except.error "Circular dependency detected"
      else
        Except.ok (kahnLoopF fuel n graph prio
          { inDeg := fun j => (graph j).length,
            heap := (List.range n).filter (fun i => (graph i).length = 0),
            result := [] }).result := by
  rw [topo_eq_kahnFinal]
  unfold kahnFinal
  rw [kahnLoop_eq_fuel n graph prio fuel _ hfuel]

/-! ### Membership lemmas for the folded hash maps. -/

theorem hmInsert_mem_of_ne {κ ν : Type} [DecidableEq κ]
    (m : List (κ × ν)) (k : κ) (v : ν) (kv : κ × ν) (h : kv ∈ m)
    (hne : kv.1 ≠ k) : kv ∈ hmInsert m k v := by
  unfold hmInsert
  exact List.mem_append.mpr (Or.inl (List.mem_filter.mpr ⟨h, by simpa using hne⟩))

theorem hmInsert_mem_self {κ ν : Type} [DecidableEq κ]
    (m : List (κ × ν)) (k : κ) (v : ν) : (k, v) ∈ hmInsert m k v := by
  unfold hmInsert
  exact List.mem_append.mpr (Or.inr (List.mem_singleton_self _))

theorem hmInsert_mem_cases {κ ν : Type} [DecidableEq κ]
    (m : List (κ × ν)) (k : κ) (v : ν) (kv : κ × ν)
    (h : kv ∈ hmInsert m k v) : kv ∈ m ∨ kv = (k, v) := by
  unfold hmInsert at h
  rcases List.mem_append.mp h with h | h
  · exact Or.inl (List.mem_filter.mp h).1
  · exact Or.inr (List.mem_singleton.mp h)

theorem hmGet_mem {κ ν : Type} [DecidableEq κ] (m : List (κ × ν)) (k : κ)
    (v : ν) (h : hmGet m k = some v) : (k, v) ∈ m := by
  unfold hmGet at h
  cases hf : m.find? (fun kv => decide (kv.1 = k)) with
  | none => rw [hf] at h; cases h
  | some kv =>
      rw [hf] at h
      have hmem := List.mem_of_find?_eq_some hf
      have hpred := List.find?_some hf
      obtain ⟨a, b⟩ := kv
      simp only [decide_eq_true_eq] at hpred
      have hb : b = v := by simpa using h
      subst hpred
      subst hb
      exact hmem

/-- Every entry of a folded map satisfies `P` when every step preserves
`P`-entries. -/
theorem foldl_entries_prop {κ ν α : Type} (P : κ × ν → Prop) :
    ∀ (L : List α) (step : List (κ × ν) → α → List (κ × ν)),
    (∀ a ∈ L, ∀ m, (∀ kv ∈ m, P kv) → ∀ kv ∈ step m a, P kv) →
    ∀ (m : List (κ × ν)), (∀ kv ∈ m, P kv) → ∀ kv ∈ L.foldl step m, P kv
  | [], _, _, _, hm => hm
  | a :: L, step, hstep, m, hm =>
      foldl_entries_prop P L step
        (fun a' ha' => hstep a' (List.mem_cons.mpr (Or.inr ha')))
        (step m a) (hstep a (List.mem_cons_self a L) m hm)

/-- An entry whose key no remaining index re-inserts survives the
`prefix_to_idx` fold. -/
theorem prefix_fold_pres (commands : List CommandSpec) (ns : String)
    (kv : List String × Nat) :
    ∀ (L : List Nat) (m : List (List String × Nat)), kv ∈ m →
    (∀ a ∈ L, ∀ c, commands[a]? = some c → kv.1 ≠ [ns, c.name]) →
    kv ∈ L.foldl
      (fun m i =>
        match commands[i]? with
        | some c => hmInsert m [ns, c.name] i
        | none => m) m
  | [], _, hm, _ => hm
  | a :: L, m, hm, hne => by
      simp only [List.foldl_cons]
      cases hc : commands[a]? with
      | none =>
          simp only [hc]
          exact prefix_fold_pres commands ns kv L m hm
            (fun a' ha' => hne a' (List.mem_cons.mpr (Or.inr ha')))
      | some c =>
          simp only [hc]
          exact prefix_fold_pres commands ns kv L _
            (hmInsert_mem_of_ne m _ a kv hm
              (hne a (List.mem_cons_self a L) c hc))
            (fun a' ha' => hne a' (List.mem_cons.mpr (Or.inr ha')))

/-- With per-index-unique prefixes, processing index `j` leaves
`([ns, name j], j)` in the `prefix_to_idx` fold. -/
theorem prefix_fold_mem (commands : List CommandSpec) (ns : String) :
    ∀ (L : List Nat) (m : List (List String × Nat)) (j : Nat)
      (cj : CommandSpec), L.Nodup → j ∈ L → commands[j]? = some cj →
    (∀ a ∈ L, ∀ c, commands[a]? = some c → c.name = cj.name → a = j) →
    ([ns, cj.name], j) ∈ L.foldl
      (fun m i =>
        match commands[i]? with
        | some c => hmInsert m [ns, c.name] i
        | none => m) m
  | [], _, j, _, _, hj, _, _ => absurd hj (List.not_mem_nil j)
  | a :: L, m, j, cj, hnd, hj, hcj, hinj => by
      rcases List.nodup_cons.mp hnd with ⟨haL, hndL⟩
      simp only [List.foldl_cons]
      by_cases haj : a = j
      · subst haj
        simp only [hcj]
        refine prefix_fold_pres commands ns _ L _
          (hmInsert_mem_self m [ns, cj.name] a) ?_
        intro b hb c hbc hkey
        have hname : c.name = cj.name := by
          have h' : cj.name = c.name := by simpa using hkey
          exact h'.symm
        have hba : b = a := hinj b (List.mem_cons.mpr (Or.inr hb)) c hbc hname
        exact haL (hba ▸ hb)
      · rcases List.mem_cons.mp hj with h | h
        · exact absurd h.symm haj
        · cases hc : commands[a]? with
          | none =>
              simp only [hc]
              exact prefix_fold_mem commands ns L m j cj hndL h hcj
                (fun a' ha' => hinj a' (List.mem_cons.mpr (Or.inr ha')))
          | some c =>
              simp only [hc]
              exact prefix_fold_mem commands ns L _ j cj hndL h hcj
                (fun a' ha' => hinj a' (List.mem_cons.mpr (Or.inr ha')))

/-- With duplicate-free command names, `prefix_to_idx` maps
`[ns, name j]` to `j` for every index `j`. -/
theorem prefix_to_idx_mem (commands : List CommandSpec) (ns : String)
    (hnames : (commands.map CommandSpec.name).Nodup) (j : Nat)
    (cj : CommandSpec) (hcj : commands[j]? = some cj) :
    ([ns, cj.name], j) ∈ prefix_to_idx commands ns := by
  obtain ⟨hjlt, hjget⟩ := List.getElem?_eq_some.mp hcj
  refine prefix_fold_mem commands ns (List.range commands.length) [] j cj
    (List.nodup_range commands.length) (List.mem_range.mpr hjlt) hcj ?_
  intro a ha c hac hname
  have halt : a < commands.length := List.mem_range.mp ha
  obtain ⟨halt2, haget⟩ := List.getElem?_eq_some.mp hac
  have h1 : (commands.map CommandSpec.name).get ⟨a, by simpa using halt⟩ =
      (commands.map CommandSpec.name).get ⟨j, by simpa using hjlt⟩ := by
    simp only [List.get_eq_getElem, List.getElem_map]
    rw [haget, hjget, hname]
  have h2 := (List.Nodup.get_inj_iff hnames).mp h1
  simpa using h2

/-- A dependency path starting with another command's prefix puts that
command into the prerequisite set of `commandGraph`. -/
theorem commandGraph_mem_dep (commands : List CommandSpec) (ns : String)
    (i j : Nat) (ci cj : CommandSpec) (hci : commands[i]? = some ci)
    (hcj : commands[j]? = some cj)
    (hnames : (commands.map CommandSpec.name).Nodup) (hij : j ≠ i)
    (dep : List String) (hdep : dep ∈ ci.dependencies)
    (hstarts : StorePath.starts_with dep [ns, cj.name] = true) :
    j ∈ commandGraph commands ns i := by
  unfold commandGraph
  simp only [hci]
  apply List.mem_dedup.mpr
  apply List.mem_append.mpr
  left
  apply List.mem_flatten.mpr
  refine ⟨(prefix_to_idx commands ns).filterMap (fun kv =>
    if StorePath.starts_with dep kv.1 ∧ kv.2 ≠ i then some kv.2 else none),
    List.mem_map.mpr ⟨dep, hdep, rfl⟩, ?_⟩
  apply List.mem_filterMap.mpr
  refine ⟨([ns, cj.name], j), prefix_to_idx_mem commands ns hnames j cj hcj, ?_⟩
  simp [hstarts, hij]

/-- Every prerequisite list of `commandGraph` is duplicate-free. -/
theorem commandGraph_nodup (commands : List CommandSpec) (ns : String)
    (idx : Nat) : (commandGraph commands ns idx).Nodup := by
  unfold commandGraph
  cases commands[idx]? with
  | none => exact List.nodup_nil
  | some c => exact List.nodup_dedup _

/-- The first index of an element is at most any index holding it. -/
theorem indexOf_le_of_get_eq {a : Nat} :
    ∀ {l : List Nat} {m : Nat} (hm : m < l.length),
    l.get ⟨m, hm⟩ = a → l.indexOf a ≤ m := by
  intro l
  induction l with
  | nil => intro m hm; cases hm
  | cons b l ih =>
      intro m hm h
      cases m with
      | zero =>
          simp only [List.get] at h
          subst h
          simp [List.indexOf_cons_self]
      | succ m =>
          by_cases hb : b = a
          · subst hb
            simp [List.indexOf_cons_self]
          · have hbne : (b == a) = false := by simpa using hb
            rw [List.indexOf_cons, hbne]
            simp only [cond_false]
            have := ih (by simpa using hm) (by simpa using h)
            omega

/-- C5: whenever `compute_command_order` returns an order for a
namespace's commands (whose names are unique, as `compile` enforces),
then for any command `i` and any other command `j` such that some
dependency path of `i` starts with `[namespace, name of j]`, command `j`
is scheduled strictly earlier in the order than command `i`. -/
theorem C5_command_order_soundness
    (commands : List CommandSpec) (ns : String) (order : List Nat)
    (hnames : (commands.map CommandSpec.name).Nodup)
    (hok : compute_command_order commands ns = Except.ok order)
    (i j : Nat) (ci cj : CommandSpec)
    (hci : commands[i]? = some ci) (hcj : commands[j]? = some cj)
    (hij : j ≠ i) (dep : List String) (hdep : dep ∈ ci.dependencies)
    (hstarts : StorePath.starts_with dep [ns, cj.name] = true) :
    j ∈ order ∧ i ∈ order ∧ order.indexOf j < order.indexOf i := by
  obtain ⟨hilt, -⟩ := List.getElem?_eq_some.mp hci
  obtain ⟨hjlt, -⟩ := List.getElem?_eq_some.mp hcj
  unfold compute_command_order at hok
  have hne : commands.isEmpty = false := by
    cases commands with
    | nil => exact absurd hilt (by simp)
    | cons c cs => rfl
  rw [hne] at hok
  simp only [Bool.false_eq_true, if_false] at hok
  unfold topological_sort at hok
  cases ht : topological_sort_with_priority (commandGraph commands ns)
      commands.length (fun _ => 0) with
  | error e =>
      rw [ht] at hok
      cases hok
  | ok order2 =>
      rw [ht] at hok
      have horder : order2 = order := Except.ok.inj hok
      subst horder
      obtain ⟨hond, holen, holt, homem, hosound⟩ :=
        topo_sound (commandGraph commands ns) commands.length (fun _ => 0)
          order2 (commandGraph_nodup commands ns) ht
      have hjmem : j ∈ order2 := homem j hjlt
      have himem : i ∈ order2 := homem i hilt
      refine ⟨hjmem, himem, ?_⟩
      have hki : order2.indexOf i < order2.length :=
        List.indexOf_lt_length.mpr himem
      have hgeti : order2.get ⟨order2.indexOf i, hki⟩ = i :=
        List.indexOf_get hki
      have hjgraph : j ∈ commandGraph commands ns i :=
        commandGraph_mem_dep commands ns i j ci cj hci hcj hnames hij dep
          hdep hstarts
      have hjtake : j ∈ order2.take (order2.indexOf i) :=
        hosound _ hki j (by rw [hgeti]; exact hjgraph)
      obtain ⟨⟨m, hmlen⟩, hmget⟩ := List.mem_iff_get.mp hjtake
      have hm_lt : m < order2.indexOf i := lt_of_lt_of_le hmlen
        (by rw [List.length_take]; exact min_le_left _ _)
      have hmord : m < order2.length := lt_of_lt_of_le hmlen
        (by rw [List.length_take]; exact min_le_right _ _)
      have hget2 : order2.get ⟨m, hmord⟩ = j := by
        rw [← hmget]
        simp [List.get_eq_getElem, List.getElem_take]
      have := indexOf_le_of_get_eq hmord hget2
      omega

/-- Commands for the C5 witness: `b` depends on `ns.a.out`. -/
def C5cmdA : CommandSpec :=
  { namespace_index := 0, name := "a", attributes := [],
    exepected_attributes := [], dependencies := [],
    provides_extensions := [], requires_extensions := [] }

def C5cmdB : CommandSpec :=
  { namespace_index := 0, name := "b", attributes := [],
    exepected_attributes := [], dependencies := [["ns", "a", "out"]],
    provides_extensions := [], requires_extensions := [] }

theorem C5_command_order_soundness_witness :
    (([C5cmdA, C5cmdB].map CommandSpec.name).Nodup ∧
      compute_command_order [C5cmdA, C5cmdB] "ns" = Except.ok [0, 1] ∧
      [C5cmdA, C5cmdB][1]? = some C5cmdB ∧
      [C5cmdA, C5cmdB][0]? = some C5cmdA ∧
      (0 : Nat) ≠ 1 ∧ ["ns", "a", "out"] ∈ C5cmdB.dependencies ∧
      StorePath.starts_with ["ns", "a", "out"] ["ns", C5cmdA.name] = true) ∧
    ((0 : Nat) ∈ ([0, 1] : List Nat) ∧ (1 : Nat) ∈ ([0, 1] : List Nat) ∧
      ([0, 1] : List Nat).indexOf 0 < ([0, 1] : List Nat).indexOf 1) := by
  have hok : compute_command_order [C5cmdA, C5cmdB] "ns" = Except.ok [0, 1] := by
    unfold compute_command_order topological_sort
    rw [topo_eval _ _ _ 20 (by decide)]
    rfl
  refine ⟨⟨by decide, hok, rfl, rfl, by decide, by decide, by decide⟩, ?_⟩
  exact C5_command_order_soundness [C5cmdA, C5cmdB] "ns" [0, 1] (by decide)
    hok 1 0 C5cmdB C5cmdA rfl rfl (by decide) ["ns", "a", "out"] (by decide)
    (by decide)

/-! ### Bounds on the namespace graph. -/

theorem name_to_idx_lt (namespaces : List Namespace) :
    ∀ kv ∈ name_to_idx namespaces, kv.2 < namespaces.length := by
  unfold name_to_idx
  refine foldl_entries_prop (fun kv => kv.2 < namespaces.length)
    (List.range namespaces.length) _ ?_ [] (by intro kv h; cases h)
  intro a ha m hm kv hkv
  cases hc : namespaces[a]? with
  | none =>
      simp only [hc] at hkv
      exact hm kv hkv
  | some ns =>
      simp only [hc] at hkv
      rcases hmInsert_mem_cases m ns.name a kv hkv with h | h
      · exact hm kv h
      · subst h
        exact List.mem_range.mp ha

theorem extension_providers_ns_lt (commands : List CommandSpec) (n : Nat)
    (hcmdns : ∀ c ∈ commands, c.namespace_index < n) :
    ∀ kv ∈ extension_providers_ns commands, kv.2 < n := by
  unfold extension_providers_ns
  refine foldl_entries_prop (fun kv => kv.2 < n) commands _ ?_ []
    (by intro kv h; cases h)
  intro c hc m hm kv hkv
  refine foldl_entries_prop (fun kv => kv.2 < n) c.provides_extensions
    (fun m2 k => hmInsertIfAbsent m2 k c.namespace_index) ?_ m hm kv hkv
  intro k _ m2 hm2 kv2 hkv2
  unfold hmInsertIfAbsent at hkv2
  cases hg : hmGet m2 k with
  | some v =>
      simp only [hg] at hkv2
      exact hm2 kv2 hkv2
  | none =>
      simp only [hg] at hkv2
      rcases hmInsert_mem_cases m2 k c.namespace_index kv2 hkv2 with h | h
      · exact hm2 kv2 h
      · subst h
        exact hcmdns c hc

theorem namespaceGraph_nodup (namespaces : List Namespace)
    (commands : List CommandSpec) :
    ∀ idx, (namespaceGraph namespaces commands idx).Nodup := by
  intro idx
  unfold namespaceGraph
  split
  · exact List.nodup_dedup _
  · exact List.nodup_nil

theorem namespaceGraph_lt (namespaces : List Namespace)
    (commands : List CommandSpec)
    (hcmdns : ∀ c ∈ commands, c.namespace_index < namespaces.length) :
    ∀ idx, idx < namespaces.length →
    ∀ d ∈ namespaceGraph namespaces commands idx, d < namespaces.length := by
  intro idx hidx d hd
  unfold namespaceGraph at hd
  rw [if_pos hidx, List.mem_dedup] at hd
  rcases List.mem_append.mp hd with hd2 | hd3
  · rcases List.mem_append.mp hd2 with hIter | hCmd
    · unfold nsIterEdges at hIter
      cases hn : namespaces[idx]? with
      | none => simp only [hn] at hIter; cases hIter
      | some ns =>
          simp only [hn] at hIter
          cases hty : ns.ty with
          | Iterative sp iv xv =>
              simp only [hty] at hIter
              cases hhead : StorePath.namespaceOf sp with
              | none => simp only [hhead] at hIter; cases hIter
              | some nsname =>
                  simp only [hhead] at hIter
                  cases hg : hmGet (name_to_idx namespaces) nsname with
                  | none => simp only [hg] at hIter; cases hIter
                  | some source_idx =>
                      simp only [hg] at hIter
                      by_cases hsi : source_idx = idx
                      · rw [if_neg (not_not_intro hsi)] at hIter
                        cases hIter
                      · rw [if_pos hsi, List.mem_singleton] at hIter
                        subst hIter
                        exact name_to_idx_lt namespaces _ (hmGet_mem _ _ _ hg)
          | Once => simp only [hty] at hIter; cases hIter
          | StaticNs v => simp only [hty] at hIter; cases hIter
    · unfold nsCmdEdges at hCmd
      rw [List.mem_flatten] at hCmd
      obtain ⟨l, hl, hdl⟩ := hCmd
      rw [List.mem_map] at hl
      obtain ⟨c, hcmem, hceq⟩ := hl
      subst hceq
      by_cases hcn : c.namespace_index = idx
      · rw [if_pos hcn, List.mem_filterMap] at hdl
        obtain ⟨dep, hdep, hsome⟩ := hdl
        cases hhead : StorePath.namespaceOf dep with
        | none => simp only [hhead] at hsome; cases hsome
        | some dn =>
            simp only [hhead] at hsome
            cases hg : hmGet (name_to_idx namespaces) dn with
            | none => simp only [hg] at hsome; cases hsome
            | some di =>
                simp only [hg] at hsome
                by_cases hdi : di = idx
                · rw [if_neg (not_not_intro hdi)] at hsome
                  cases hsome
                · rw [if_pos hdi] at hsome
                  rcases Option.some.inj hsome with h
                  subst h
                  exact name_to_idx_lt namespaces _ (hmGet_mem _ _ _ hg)
      · rw [if_neg hcn] at hdl
        cases hdl
  · unfold nsExtEdges at hd3
    rw [List.mem_flatten] at hd3
    obtain ⟨l, hl, hdl⟩ := hd3
    rw [List.mem_map] at hl
    obtain ⟨c, hcmem, hceq⟩ := hl
    subst hceq
    by_cases hcn : c.namespace_index = idx
    · rw [if_pos hcn, List.mem_filterMap] at hdl
      obtain ⟨k, hk, hsome⟩ := hdl
      cases hg : hmGet (extension_providers_ns commands) k with
      | none => simp only [hg] at hsome; cases hsome
      | some p =>
          simp only [hg] at hsome
          by_cases hp : p = idx
          · rw [if_neg (not_not_intro hp)] at hsome
            cases hsome
          · rw [if_pos hp] at hsome
            rcases Option.some.inj hsome with h
            subst h
            exact extension_providers_ns_lt commands namespaces.length hcmdns _
              (hmGet_mem _ _ _ hg)
    · rw [if_neg hcn] at hdl
      cases hdl

/-- C6 (amended): with the earlier compile checks passing and command
namespace indices in range, `compile` succeeds when the namespace-level
dependency graph is cycle-free and fails when it has a cycle; the Kahn
cycle test of `topological_sort_with_priority` reports a cycle exactly
when it emitted fewer nodes than the node count.  (Command-level cycles
are not examined by `compile`: its plan validation is
`ExecutionPlan::new`, which only computes the namespace order — see the
counterexample.) -/
theorem C6_compile_cycle_detection
    (identsOf : String → Option (List String))
    (namespaces : List Namespace) (commands : List CommandSpec)
    (hcmdns : ∀ c ∈ commands, c.namespace_index < namespaces.length)
    (hname : compile_name_checks namespaces commands = Except.ok ())
    (htype : compile_ns_type_checks namespaces = Except.ok ())
    (hattr : compile_attr_checks identsOf commands = Except.ok ())
    (hext : compile_extension_checks namespaces commands = Except.ok ()) :
    (¬ hasCycleSet namespaces.length (namespaceGraph namespaces commands) →
      compile identsOf namespaces commands = Except.ok ()) ∧
    (hasCycleSet namespaces.length (namespaceGraph namespaces commands) →
      ∃ e, compile identsOf namespaces commands = Except.error e) ∧
    (∀ (graph : Nat → List Nat) (n : Nat) (prio : Nat → Nat),
      (∀ k, (graph k).Nodup) →
      ((∃ e, topological_sort_with_priority graph n prio = Except.error e) ↔
        (kahnFinal graph n prio).result.length < n)) := by
  have hcompile_eq : compile identsOf namespaces commands =
      match ExecutionPlan_new namespaces commands with
      | .error e =>
          .error ("Execution plan validation failed during compilation: " ++ e)
      | .ok _ => .ok () := by
    unfold compile
    rw [hname, htype, hattr, hext]
    rfl
  refine ⟨?_, ?_, ?_⟩
  · intro hacyc
    rw [hcompile_eq]
    unfold ExecutionPlan_new compute_namespace_order
    cases hemp : namespaces.isEmpty with
    | true => simp [hemp]
    | false =>
        simp only [hemp, Bool.false_eq_true, if_false]
        obtain ⟨order, horder⟩ :=
          (topo_ok_iff_acyclic (namespaceGraph namespaces commands)
            namespaces.length (nsPriority commands)
            (namespaceGraph_nodup namespaces commands)
            (namespaceGraph_lt namespaces commands hcmdns)).mpr hacyc
        rw [horder]
  · intro hcyc
    rw [hcompile_eq]
    unfold ExecutionPlan_new compute_namespace_order
    have hnz : namespaces.length ≠ 0 := by
      intro h0
      obtain ⟨S, hSsub, hSne, -⟩ := hcyc
      obtain ⟨x, hx⟩ := hSne
      have := Finset.mem_powerset.mp hSsub hx
      rw [h0] at this
      simp at this
    have hemp : namespaces.isEmpty = false := by
      cases namespaces with
      | nil => exact absurd rfl hnz
      | cons a l => rfl
    simp only [hemp, Bool.false_eq_true, if_false]
    cases ht : topological_sort_with_priority (namespaceGraph namespaces commands)
        namespaces.length (nsPriority commands) with
    | ok order =>
        have hacyc := (topo_ok_iff_acyclic (namespaceGraph namespaces commands)
          namespaces.length (nsPriority commands)
          (namespaceGraph_nodup namespaces commands)
          (namespaceGraph_lt namespaces commands hcmdns)).mp ⟨order, ht⟩
        exact absurd hcyc hacyc
    | error e => exact ⟨_, rfl⟩
  · intro graph n prio hndg
    exact topo_err_iff_short graph n prio hndg

/-- Pipeline for the C6 witness: one `Once` namespace with one
dependency-free command. -/
def C6wNs : Namespace := { name := "ns", ty := .Once }

def C6wCmd : CommandSpec :=
  { namespace_index := 0, name := "a", attributes := [],
    exepected_attributes := [], dependencies := [],
    provides_extensions := [], requires_extensions := [] }

def C6wIdents : String → Option (List String) := fun _ => some []

theorem C6_compile_cycle_detection_witness :
    ((∀ c ∈ [C6wCmd], c.namespace_index < [C6wNs].length) ∧
      compile_name_checks [C6wNs] [C6wCmd] = Except.ok () ∧
      compile_ns_type_checks [C6wNs] = Except.ok () ∧
      compile_attr_checks C6wIdents [C6wCmd] = Except.ok () ∧
      compile_extension_checks [C6wNs] [C6wCmd] = Except.ok ()) ∧
    ((¬ hasCycleSet [C6wNs].length (namespaceGraph [C6wNs] [C6wCmd]) →
        compile C6wIdents [C6wNs] [C6wCmd] = Except.ok ()) ∧
      (hasCycleSet [C6wNs].length (namespaceGraph [C6wNs] [C6wCmd]) →
        ∃ e, compile C6wIdents [C6wNs] [C6wCmd] = Except.error e) ∧
      (∀ (graph : Nat → List Nat) (n : Nat) (prio : Nat → Nat),
        (∀ k, (graph k).Nodup) →
        ((∃ e, topological_sort_with_priority graph n prio =
            Except.error e) ↔
          (kahnFinal graph n prio).result.length < n))) := by
  refine ⟨⟨by decide, rfl, rfl, rfl, rfl⟩, ?_⟩
  exact C6_compile_cycle_detection C6wIdents [C6wNs] [C6wCmd] (by decide)
    rfl rfl rfl rfl

/-- Pipeline for the C6 counterexample: one namespace whose two commands
depend on each other.  The command-level dependency graph has a cycle
and `compute_command_order` rejects it, yet `compile` succeeds: its plan
validation (`ExecutionPlan::new`) computes only the namespace order. -/
def C6cNs : Namespace := { name := "ns", ty := .Once }

def C6cCmdA : CommandSpec :=
  { namespace_index := 0, name := "a", attributes := [],
    exepected_attributes := [], dependencies := [["ns", "b", "out"]],
    provides_extensions := [], requires_extensions := [] }

def C6cCmdB : CommandSpec :=
  { namespace_index := 0, name := "b", attributes := [],
    exepected_attributes := [], dependencies := [["ns", "a", "out"]],
    provides_extensions := [], requires_extensions := [] }

def C6cIdents : String → Option (List String) := fun _ => some []

theorem C6_command_cycle_counterexample :
    hasCycleSet 2 (commandGraph [C6cCmdA, C6cCmdB] "ns") ∧
    compute_command_order [C6cCmdA, C6cCmdB] "ns" =
      Except.error "Circular dependency detected in command execution order" ∧
    compile C6cIdents [C6cNs] [C6cCmdA, C6cCmdB] = Except.ok () := by
  refine ⟨by decide, ?_, ?_⟩
  · unfold compute_command_order topological_sort
    rw [topo_eval _ _ _ 20 (by decide)]
    rfl
  · have hplan : ExecutionPlan_new [C6cNs] [C6cCmdA, C6cCmdB] =
        Except.ok [0] := by
      unfold ExecutionPlan_new compute_namespace_order
      rw [topo_eval _ _ _ 20 (by decide)]
      rfl
    unfold compile
    rw [hplan]
    rfl

end Panopticon
